import Mathlib

/-!
# CDMA codec (`cdma.c`): a shallow embedding and its verification

The C sources are embedded as pure Lean functions.

* A C array is a `List`; pointer arithmetic `p + shift` followed by `p[k]` is a
  read of the underlying array at `shift + k`.
* Every array access is bounds checked: an access outside the allocated cells
  is undefined behaviour in C and yields `Outcome.undefined` here.
* A `NULL` pointer is the array with no cells.
* An `unsigned int` is a natural number below `2 ^ 32`, and its subtraction wraps
  modulo `2 ^ 32` as in C. A `size_t` has 64 bits and an `int` 32 bits: the
  allocation size of the matrix and the row offset of a station are computed
  modulo `2 ^ 64` (`size_mul`), and the correlation sum of the receiver is
  computed modulo `2 ^ 32` in two's complement (`wrap_int`). The other sizes
  and sums are those of arrays that have been allocated and are plain natural
  numbers and integers.
* Allocation always succeeds, so the `CDMA_OUT_OF_MEMORY` exits are never taken,
  except in `cdma_receiver_get_alloc` and `cdma_receiver_decode_n_alloc`, where
  the outcome of each `calloc` of the receiver is an argument; the cells handed
  out by `malloc` are modelled as holding `0` (and so are those of `calloc`).
* Arguments are present objects, so the `NULL` checks at the head of the API
  functions are not part of the model.
* A `char` is its byte value, a natural number below `256`; a C string is the
  list of its characters before the terminating NUL.
-/

namespace Cdma

/-! ## Error codes and outcomes -/

/-- The enumeration `cdma_errno_t` of `cdma.h`. -/
inductive cdma_errno where
  | CDMA_SUCCESS
  | CDMA_OUT_OF_MEMORY
  | CDMA_INVALID_ARGUMENT
  | CDMA_BAD_MESSAGE_SIZE
  deriving DecidableEq, Repr

/-- Result of running a C function: a value, a reported error code (the function
returned `NULL` and stored the code), or undefined behaviour. -/
inductive Outcome (α : Type) where
  | ok : α → Outcome α
  | error : cdma_errno → Outcome α
  | undefined : Outcome α
  deriving DecidableEq, Repr

/-- Sequencing of two computations: the second runs only when the first returned. -/
def Outcome.bind {α β : Type} : Outcome α → (α → Outcome β) → Outcome β
  | .ok a, f => f a
  | .error e, _ => .error e
  | .undefined, _ => .undefined

/-- The loop `for (i = 0; i < n; i++) body(i)` acting on a loop state. -/
def for_loop {σ : Type} (body : Nat → σ → Outcome σ) : Nat → σ → Outcome σ
  | 0, s => .ok s
  | n + 1, s => (for_loop body n s).bind (body n)

/-- Checked read `a[i]`. -/
def read {α : Type} (a : List α) (i : Nat) : Outcome α :=
  match a[i]? with
  | some v => .ok v
  | none => .undefined

/-- Checked write `a[i] = v`. -/
def write {α : Type} (a : List α) (i : Nat) (v : α) : Outcome (List α) :=
  if i < a.length then .ok (a.set i v) else .undefined

/-! ## Constants and data structures -/

/-- The macro `BIT_LENGTH`. -/
def BIT_LENGTH : Nat := 8

/-- The macro `CODE_LENGTH`, that is `sizeof(char) * BIT_LENGTH`. -/
def CODE_LENGTH : Nat := 1 * BIT_LENGTH

/-- Subtraction of `unsigned int` values, wrapping modulo `2 ^ 32`. -/
def usub (a b : Nat) : Nat := (a + 2 ^ 32 - b % 2 ^ 32) % 2 ^ 32

/-- Multiplication of `size_t` values, wrapping modulo `2 ^ 64`. -/
def size_mul (a b : Nat) : Nat := (a * b) % 2 ^ 64

/-- The value stored in an `int` for the mathematical result `x`: `x` reduced
modulo `2 ^ 32` into the range from `-2 ^ 31` to `2 ^ 31 - 1`. -/
def wrap_int (x : Int) : Int := (x + 2 ^ 31) % 2 ^ 32 - 2 ^ 31

/-- The record `struct cdma_base_station`. -/
structure cdma_base_station where
  walsh_codes : List Int
  walsh_codes_size : Nat
  deriving DecidableEq, Repr

/-- The record `struct cdma_transmitter`; `codes` is the array of station slots. -/
structure cdma_transmitter where
  base_station : cdma_base_station
  codes : List (List Int)
  codes_size : Nat
  prev_message_size : Nat
  deriving DecidableEq, Repr

/-- The record `struct cdma_receiver`. -/
structure cdma_receiver where
  base_station : cdma_base_station
  deriving DecidableEq, Repr

/-- The record `struct cdma_encoded_message`. -/
structure cdma_encoded_message where
  encoded : List Int
  size : Nat
  deriving DecidableEq, Repr

/-! ## Base station -/

/-- The loop of `get_log2`; an `unsigned int` is exhausted after 32 shifts. -/
def get_log2_loop : Nat → Nat → Nat → Nat
  | 0, _, p => p
  | fuel + 1, n, p => if n > 0 then get_log2_loop fuel (n >>> 1) (p + 1) else p

/-- The function `get_log2`: the number of significant bits of `n`. -/
def get_log2 (n : Nat) : Nat := get_log2_loop 32 n 0

/-- The assignment `base_station->walsh_codes[i] = v`. -/
def store (base_station : cdma_base_station) (i : Nat) (v : Int) : Outcome cdma_base_station :=
  (write base_station.walsh_codes i v).bind fun w =>
    .ok { base_station with walsh_codes := w }

/-- The recursive function `walsh_codes_init`. -/
def walsh_codes_init :
    Nat → cdma_base_station → Nat → Nat → Nat → Int → Outcome cdma_base_station
  | 0, base_station, x, y, _, sign =>
    store base_station (y * base_station.walsh_codes_size + x) sign
  | 1, base_station, x, y, _, sign =>
    (store base_station (y * base_station.walsh_codes_size + x) sign).bind fun b1 =>
    (store b1 (y * b1.walsh_codes_size + (x + 1)) sign).bind fun b2 =>
    (store b2 ((y + 1) * b2.walsh_codes_size + x) sign).bind fun b3 =>
    store b3 ((y + 1) * b3.walsh_codes_size + (x + 1)) (-sign)
  | next + 2, base_station, x, y, local_size, sign =>
    let step := local_size >>> 1
    (walsh_codes_init (next + 1) base_station x y step sign).bind fun b1 =>
    (walsh_codes_init (next + 1) b1 (x + step) y step sign).bind fun b2 =>
    (walsh_codes_init (next + 1) b2 x (y + step) step sign).bind fun b3 =>
    walsh_codes_init (next + 1) b3 (x + step) (y + step) step (-sign)

/-- The function `cdma_base_station_create`; `malloc` is asked for
`sizeof(int) * (n * n)` bytes, a product formed in `size_t`, and hands out as
many `int` cells as fit in them. -/
def cdma_base_station_create (n : Nat) : Outcome cdma_base_station :=
  if n &&& usub n 1 ≠ 0 then .error .CDMA_INVALID_ARGUMENT
  else
    let base_station : cdma_base_station :=
      { walsh_codes := List.replicate (size_mul 4 (size_mul n n) / 4) 0, walsh_codes_size := n }
    let k := get_log2 n
    walsh_codes_init (usub k 1) base_station 0 0 base_station.walsh_codes_size 1

/-! ## Transmitter -/

/-- The function `cdma_transmitter_create`. -/
def cdma_transmitter_create (base_station : cdma_base_station) : Outcome cdma_transmitter :=
  .ok { base_station := base_station
        codes := List.replicate base_station.walsh_codes_size []
        codes_size := 0
        prev_message_size := 0 }

/-- The inner loop body of `cdma_transmitter_add_station`: one bit sign of the
character `c` is stored at `code[index++]`. -/
def add_station_bit (c : Nat) (j : Nat) (st : List Int × Nat) : Outcome (List Int × Nat) :=
  let shift := CODE_LENGTH - 1 - j
  let mask := 1 <<< shift
  let x := (c &&& mask) >>> shift
  (write st.1 st.2 (if x > 0 then 1 else -1)).bind fun code => .ok (code, st.2 + 1)

/-- The outer loop body of `cdma_transmitter_add_station`. -/
def add_station_char (message : List Nat) (i : Nat) (st : List Int × Nat) :
    Outcome (List Int × Nat) :=
  (read message i).bind fun c => for_loop (add_station_bit c) CODE_LENGTH st

/-- The function `cdma_transmitter_add_station`; the result is the returned error
code together with the state of the transmitter after the call. -/
def cdma_transmitter_add_station (transmitter : cdma_transmitter) (message : List Nat) :
    Outcome (cdma_errno × cdma_transmitter) :=
  let message_size := message.length
  let encode (transmitter : cdma_transmitter) : Outcome (cdma_errno × cdma_transmitter) :=
    let code_size := CODE_LENGTH * message_size
    (for_loop (add_station_char message) message_size
        (List.replicate code_size 0, 0)).bind fun st =>
    (write transmitter.codes transmitter.codes_size st.1).bind fun codes =>
    .ok (.CDMA_SUCCESS,
      { transmitter with codes := codes, codes_size := transmitter.codes_size + 1 })
  if transmitter.prev_message_size = 0 then
    encode { transmitter with prev_message_size := message_size }
  else if transmitter.prev_message_size ≠ message_size then
    .ok (.CDMA_BAD_MESSAGE_SIZE, transmitter)
  else
    encode transmitter

/-- The inner loop body of `get_encoded_code`. -/
def encoded_code_chip (walsh_codes : List Int) (walsh_codes_shift : Nat) (sign : Int)
    (j : Nat) (st : List Int × Nat) : Outcome (List Int × Nat) :=
  (read walsh_codes (walsh_codes_shift + j)).bind fun w =>
  (write st.1 st.2 (sign * w)).bind fun encoded => .ok (encoded, st.2 + 1)

/-- The outer loop body of `get_encoded_code`. -/
def encoded_code_bit (code walsh_codes : List Int) (walsh_codes_shift walsh_code_size : Nat)
    (i : Nat) (st : List Int × Nat) : Outcome (List Int × Nat) :=
  (read code i).bind fun sign =>
  for_loop (encoded_code_chip walsh_codes walsh_codes_shift sign) walsh_code_size st

/-- The function `get_encoded_code`; the argument `walsh_code` of the C function is
the pointer `walsh_codes + walsh_codes_shift`. -/
def get_encoded_code (code walsh_codes : List Int)
    (walsh_codes_shift walsh_code_size code_size : Nat) : Outcome (List Int) :=
  let size := walsh_code_size * code_size
  (for_loop (encoded_code_bit code walsh_codes walsh_codes_shift walsh_code_size) code_size
      (List.replicate size 0, 0)).bind fun st => .ok st.1

/-- The accumulation `encoded_message->encoded[j] += encoded[j]`. -/
def send_accumulate (encoded : List Int) (j : Nat) (acc : List Int) : Outcome (List Int) :=
  (read acc j).bind fun a =>
  (read encoded j).bind fun b => write acc j (a + b)

/-- The body of the station loop of `cdma_transmitter_send`. -/
def send_station (transmitter : cdma_transmitter) (code_size size : Nat)
    (i : Nat) (acc : List Int) : Outcome (List Int) :=
  (read transmitter.codes i).bind fun code =>
  let walsh_code_size := transmitter.base_station.walsh_codes_size
  let walsh_codes_shift := walsh_code_size * i
  (get_encoded_code code transmitter.base_station.walsh_codes walsh_codes_shift
      walsh_code_size code_size).bind fun encoded =>
  for_loop (send_accumulate encoded) size acc

/-- The function `cdma_transmitter_send`. -/
def cdma_transmitter_send (transmitter : cdma_transmitter) : Outcome cdma_encoded_message :=
  let code_size := transmitter.prev_message_size * CODE_LENGTH
  let size := code_size * transmitter.base_station.walsh_codes_size
  (for_loop (send_station transmitter code_size size) transmitter.codes_size
      (List.replicate size 0)).bind fun encoded =>
  .ok { encoded := encoded, size := size }

/-! ## Receiver -/

/-- The function `cdma_receiver_create`. -/
def cdma_receiver_create (base_station : cdma_base_station) : Outcome cdma_receiver :=
  .ok { base_station := base_station }

/-- The innermost loop body of `cdma_receiver_get`: `sum += encoded[index++] * walsh_code[k]`. -/
def receiver_chip (encoded walsh_codes : List Int) (walsh_code_shift : Nat)
    (k : Nat) (st : Int × Nat) : Outcome (Int × Nat) :=
  (read encoded st.2).bind fun a =>
  (read walsh_codes (walsh_code_shift + k)).bind fun b =>
    .ok (wrap_int (st.1 + wrap_int (a * b)), st.2 + 1)

/-- The loop body of `cdma_receiver_get` that fills `data[j]`. -/
def receiver_bit (encoded walsh_codes : List Int) (walsh_code_shift : Nat)
    (j : Nat) (st : List Int × Nat) : Outcome (List Int × Nat) :=
  (for_loop (receiver_chip encoded walsh_codes walsh_code_shift) CODE_LENGTH
      (0, st.2)).bind fun r =>
  (write st.1 j r.1).bind fun data => .ok (data, r.2)

/-- The loop body of `cdma_receiver_get` that assembles the character. -/
def receiver_assemble (data : List Int) (j : Nat) (c : Nat) : Outcome Nat :=
  let shift := CODE_LENGTH - 1 - j
  (read data j).bind fun d => .ok (if d > 0 then c ||| (1 <<< shift) else c)

/-- The body of the character loop of `cdma_receiver_get`. -/
def receiver_char (encoded walsh_codes : List Int) (walsh_code_shift : Nat)
    (i : Nat) (st : List Nat × Nat) : Outcome (List Nat × Nat) :=
  (for_loop (receiver_bit encoded walsh_codes walsh_code_shift) CODE_LENGTH
      (List.replicate CODE_LENGTH 0, st.2)).bind fun r =>
  (for_loop (receiver_assemble r.1) CODE_LENGTH 0).bind fun c =>
  (write st.1 i c).bind fun message => .ok (message, r.2)

/-- The function `cdma_receiver_get`; the result is the whole buffer, the decoded
characters followed by the terminating NUL. -/
def cdma_receiver_get (receiver : cdma_receiver) (encoded_message : cdma_encoded_message)
    (station : Nat) : Outcome (List Nat) :=
  let walsh_code_size := receiver.base_station.walsh_codes_size
  let single_code_size := CODE_LENGTH * walsh_code_size
  if single_code_size = 0 then .undefined
  else
    let message_size := encoded_message.size / single_code_size
    let walsh_code_shift := size_mul walsh_code_size station
    (for_loop (receiver_char encoded_message.encoded receiver.base_station.walsh_codes
        walsh_code_shift) message_size (List.replicate (message_size + 1) 0, 0)).bind fun st =>
    .ok st.1

/-- The body of the station loop of `cdma_receiver_decode_n`. -/
def decode_n_station (receiver : cdma_receiver) (encoded_message : cdma_encoded_message)
    (station : Nat) (messages : List (List Nat)) : Outcome (List (List Nat)) :=
  (cdma_receiver_get receiver encoded_message station).bind fun message =>
  write messages station message

/-- The function `cdma_receiver_decode_n`; the result is the array of `n + 1`
pointers, the last one `NULL`. -/
def cdma_receiver_decode_n (receiver : cdma_receiver) (encoded_message : cdma_encoded_message)
    (n : Nat) : Outcome (List (List Nat)) :=
  for_loop (decode_n_station receiver encoded_message) n (List.replicate (n + 1) [])

/-- The characters of the C string stored in a buffer: those before the first NUL. -/
def c_string (buffer : List Nat) : List Nat := buffer.takeWhile (fun c => c ≠ 0)

/-! ## The test driver -/

/-- The registration loop of `main` in `test-driver.c`: it stops at the first
call that does not return `CDMA_SUCCESS`. -/
def add_stations (transmitter : cdma_transmitter) :
    List (List Nat) → Outcome cdma_transmitter
  | [] => .ok transmitter
  | message :: rest =>
    (cdma_transmitter_add_station transmitter message).bind fun r =>
      if r.1 = .CDMA_SUCCESS then add_stations r.2 rest else .error r.1

/-- The pipeline of `main` in `test-driver.c` for a code set of size `size` (the
driver uses `8`): create the objects, register the messages, send, decode as
many stations as there are messages. -/
def run_driver (size : Nat) (messages : List (List Nat)) : Outcome (List (List Nat)) :=
  (cdma_base_station_create size).bind fun base_station =>
  (cdma_transmitter_create base_station).bind fun transmitter =>
  (cdma_receiver_create base_station).bind fun receiver =>
  (add_stations transmitter messages).bind fun transmitter =>
  (cdma_transmitter_send transmitter).bind fun encoded_message =>
  cdma_receiver_decode_n receiver encoded_message messages.length

/-! ## The receiver with allocation failure

The functions above take every allocation to succeed. The two functions below
make the outcome of the `calloc` calls of the receiver explicit, so that a
failing station decode can be expressed. -/

/-- The function `cdma_receiver_get` where `calloc_ok` tells whether its `calloc`
returns a buffer; when it does not, the call stores `CDMA_OUT_OF_MEMORY` and
returns `NULL`. -/
def cdma_receiver_get_alloc (calloc_ok : Bool) (receiver : cdma_receiver)
    (encoded_message : cdma_encoded_message) (station : Nat) : Outcome (List Nat) :=
  let walsh_code_size := receiver.base_station.walsh_codes_size
  let single_code_size := CODE_LENGTH * walsh_code_size
  if single_code_size = 0 then .undefined
  else if calloc_ok then cdma_receiver_get receiver encoded_message station
  else .error .CDMA_OUT_OF_MEMORY

/-- The body of the station loop of `cdma_receiver_decode_n` over
`cdma_receiver_get_alloc`: a failed decode leaves the loop with its error. -/
def decode_n_station_alloc (station_calloc_ok : Nat → Bool) (receiver : cdma_receiver)
    (encoded_message : cdma_encoded_message) (station : Nat) (messages : List (List Nat)) :
    Outcome (List (List Nat)) :=
  (cdma_receiver_get_alloc (station_calloc_ok station) receiver encoded_message station).bind
    fun message => write messages station message

/-- The function `cdma_receiver_decode_n` where `calloc_ok` tells whether the
allocation of the pointer array succeeds and `station_calloc_ok s` whether the
allocation made while decoding station `s` succeeds. -/
def cdma_receiver_decode_n_alloc (calloc_ok : Bool) (station_calloc_ok : Nat → Bool)
    (receiver : cdma_receiver) (encoded_message : cdma_encoded_message) (n : Nat) :
    Outcome (List (List Nat)) :=
  if calloc_ok then
    for_loop (decode_n_station_alloc station_calloc_ok receiver encoded_message) n
      (List.replicate (n + 1) [])
  else .error .CDMA_OUT_OF_MEMORY

/-! ## The receiver over its memory

A second embedding of `cdma_receiver_get` by explicit state passing: every
statement acts on the record of all the memory the call can reach, the matrix
and the stream included, so that what the call leaves in them is part of its
result. -/

/-- The memory that `cdma_receiver_get` reaches: the matrix of the base station,
the chips of the stream, the allocated `message`, and the locals `data`, `index`,
`sum` and `c`. -/
structure receiver_state where
  walsh_codes : List Int
  encoded : List Int
  message : List Nat
  data : List Int
  index : Nat
  sum : Int
  c : Nat
  deriving DecidableEq, Repr

/-- The statements `a = encoded[index++]; b = walsh_code[k]; sum += a * b`. -/
def receiver_chip_st (walsh_code_shift : Nat) (k : Nat) (st : receiver_state) :
    Outcome receiver_state :=
  (read st.encoded st.index).bind fun a =>
  (read st.walsh_codes (walsh_code_shift + k)).bind fun b =>
  .ok { st with index := st.index + 1, sum := wrap_int (st.sum + wrap_int (a * b)) }

/-- The statements `sum = 0`, the chip loop, and `data[j] = sum`. -/
def receiver_bit_st (walsh_code_shift : Nat) (j : Nat) (st : receiver_state) :
    Outcome receiver_state :=
  (for_loop (receiver_chip_st walsh_code_shift) CODE_LENGTH { st with sum := 0 }).bind fun s1 =>
  (write s1.data j s1.sum).bind fun data => .ok { s1 with data := data }

/-- The statement `if (data[j] > 0) c |= (1 << shift)`. -/
def receiver_assemble_st (j : Nat) (st : receiver_state) : Outcome receiver_state :=
  let shift := CODE_LENGTH - 1 - j
  (read st.data j).bind fun d =>
  .ok { st with c := if d > 0 then st.c ||| (1 <<< shift) else st.c }

/-- The body of the character loop: `data = { 0 }`, the bit loop, `c = 0`, the
assembling loop, and `message[i] = c`. -/
def receiver_char_st (walsh_code_shift : Nat) (i : Nat) (st : receiver_state) :
    Outcome receiver_state :=
  (for_loop (receiver_bit_st walsh_code_shift) CODE_LENGTH
      { st with data := List.replicate CODE_LENGTH 0 }).bind fun s1 =>
  (for_loop receiver_assemble_st CODE_LENGTH { s1 with c := 0 }).bind fun s2 =>
  (write s2.message i s2.c).bind fun message => .ok { s2 with message := message }

/-- The function `cdma_receiver_get` by state passing; the result is the returned
buffer together with the receiver and the stream as the call leaves them. -/
def cdma_receiver_get_st (receiver : cdma_receiver) (encoded_message : cdma_encoded_message)
    (station : Nat) : Outcome (List Nat × cdma_receiver × cdma_encoded_message) :=
  let walsh_code_size := receiver.base_station.walsh_codes_size
  let single_code_size := CODE_LENGTH * walsh_code_size
  if single_code_size = 0 then .undefined
  else
    let message_size := encoded_message.size / single_code_size
    let walsh_code_shift := size_mul walsh_code_size station
    (for_loop (receiver_char_st walsh_code_shift) message_size
      { walsh_codes := receiver.base_station.walsh_codes
        encoded := encoded_message.encoded
        message := List.replicate (message_size + 1) 0
        data := []
        index := 0
        sum := 0
        c := 0 }).bind fun st =>
    .ok (st.message,
      { base_station := { walsh_codes := st.walsh_codes, walsh_codes_size := walsh_code_size } },
      { encoded := st.encoded, size := encoded_message.size })

/-! ## Reference notions used in the statements -/

/-- Entry `(r, c)` of the Sylvester matrix of order `2 ^ k`, by quadrants:
the matrix of order `2 ^ (k + 1)` repeats the matrix of order `2 ^ k` in its
four quadrants and negates the bottom-right one. -/
def hadamard : Nat → Nat → Nat → Int
  | 0, _, _ => 1
  | k + 1, r, c =>
    if r < 2 ^ k then
      if c < 2 ^ k then hadamard k r c else hadamard k r (c - 2 ^ k)
    else
      if c < 2 ^ k then hadamard k (r - 2 ^ k) c else - hadamard k (r - 2 ^ k) (c - 2 ^ k)

/-- Chip `c` of the code row of station `i`: the cell `walsh_codes[i * n + c]`
(`0` when there is no such cell). -/
def code_chip (base_station : cdma_base_station) (i c : Nat) : Int :=
  base_station.walsh_codes.getD (i * base_station.walsh_codes_size + c) 0

/-- Dot product of the code rows of stations `i` and `j`. -/
def row_dot (base_station : cdma_base_station) (i j : Nat) : Int :=
  ∑ c in Finset.range base_station.walsh_codes_size,
    code_chip base_station i c * code_chip base_station j c

/-- Number of 1-bits of `x` among the bit positions below `w`. -/
def ones_below (w x : Nat) : Nat := ∑ i in Finset.range w, if x.testBit i then 1 else 0

/-- Number of 1-bits of `x`. -/
def popcount (x : Nat) : Nat := ones_below x.size x

/-- The effect of filling the block of order `2 ^ k` whose top-left cell is at
column `x`, row `y`: the block holds `sign` times the Sylvester matrix, every
other cell is unchanged. -/
def block_written (k : Nat) (b0 b1 : cdma_base_station) (x y : Nat) (sign : Int) : Prop :=
  b1.walsh_codes_size = b0.walsh_codes_size ∧
  b1.walsh_codes.length = b0.walsh_codes.length ∧
  ∀ r c, c < b0.walsh_codes_size →
    b1.walsh_codes[r * b0.walsh_codes_size + c]? =
      if y ≤ r ∧ r < y + 2 ^ k ∧ x ≤ c ∧ c < x + 2 ^ k then
        some (sign * hadamard k (r - y) (c - x))
      else b0.walsh_codes[r * b0.walsh_codes_size + c]?

/-- Sign of bit `7 - j` of the character `c`: the `j`-th bit sign, most
significant bit first. -/
def bit_sign (c j : Nat) : Int := if c.testBit (7 - j) then 1 else -1

/-- The bit-sign sequence of a message: eight signs per character. -/
def bit_signs (message : List Nat) : List Int :=
  (List.range (8 * message.length)).map fun p => bit_sign (message.getD (p / 8) 0) (p % 8)

/-- A sequence of `cdma_transmitter_add_station` calls on one transmitter, one
call per message of the list; the sequence goes on whatever code a call returns
(a call that returns an error code hands the transmitter back as it was). -/
def add_station_calls (transmitter : cdma_transmitter) :
    List (List Nat) → Outcome cdma_transmitter
  | [] => .ok transmitter
  | message :: rest =>
    (cdma_transmitter_add_station transmitter message).bind fun r =>
      add_station_calls r.2 rest

/-- The mathematical correlation sum of the innermost loop of
`cdma_receiver_get`: the sum of the products of the `CODE_LENGTH` chips from
`index` on with the `CODE_LENGTH` cells of the matrix from `walsh_code_shift` on. -/
def chip_sum (encoded walsh_codes : List Int) (walsh_code_shift index : Nat) : Int :=
  ∑ k in Finset.range CODE_LENGTH,
    encoded.getD (index + k) 0 * walsh_codes.getD (walsh_code_shift + k) 0

/-- What the innermost loop of `cdma_receiver_get` leaves in the `int` variable
`sum` after `k` chips: every product and every addition is reduced to an `int`. -/
def chip_sum_upto (encoded walsh_codes : List Int) (walsh_code_shift index : Nat) : Nat → Int
  | 0 => 0
  | k + 1 =>
    wrap_int (chip_sum_upto encoded walsh_codes walsh_code_shift index k +
      wrap_int (encoded.getD (index + k) 0 * walsh_codes.getD (walsh_code_shift + k) 0))

/-- The value of `sum` that `cdma_receiver_get` stores in `data[j]`. -/
def chip_sum_int (encoded walsh_codes : List Int) (walsh_code_shift index : Nat) : Int :=
  chip_sum_upto encoded walsh_codes walsh_code_shift index CODE_LENGTH

/-- The reference despreader of the specification: the correlation of the `n`
chips of block `(m, t)` of the stream with the code row of station `s`. -/
def reference_despread_sum (base_station : cdma_base_station) (encoded : List Int)
    (s m t : Nat) : Int :=
  ∑ c in Finset.range base_station.walsh_codes_size,
    encoded.getD ((8 * m + t) * base_station.walsh_codes_size + c) 0 *
      code_chip base_station s c

/-- Two outcomes correspond: both return values related by `R`, or both report the
same error, or both are undefined. -/
def Outcome.rel {α β : Type} (R : α → β → Prop) : Outcome α → Outcome β → Prop
  | .ok a, .ok b => R a b
  | .error c, .error d => c = d
  | .undefined, .undefined => True
  | _, _ => False

/-! ## Outcomes and loops -/

@[simp] theorem Outcome.bind_ok {α β : Type} (a : α) (f : α → Outcome β) :
    (Outcome.ok a).bind f = f a := rfl

@[simp] theorem Outcome.bind_error {α β : Type} (e : cdma_errno) (f : α → Outcome β) :
    (Outcome.error e : Outcome α).bind f = .error e := rfl

@[simp] theorem Outcome.bind_undefined {α β : Type} (f : α → Outcome β) :
    (Outcome.undefined : Outcome α).bind f = .undefined := rfl

@[simp] theorem for_loop_zero {σ : Type} (body : Nat → σ → Outcome σ) (s : σ) :
    for_loop body 0 s = .ok s := rfl

theorem for_loop_succ {σ : Type} (body : Nat → σ → Outcome σ) (n : Nat) (s : σ) :
    for_loop body (n + 1) s = (for_loop body n s).bind (body n) := rfl

/-- Loop invariant rule: an invariant that holds initially and is carried by
every iteration (which must return) holds after the loop, which returns. -/
theorem for_loop_inv {σ : Type} (body : Nat → σ → Outcome σ) (I : Nat → σ → Prop)
    (n : Nat) (s0 : σ) (h0 : I 0 s0)
    (hstep : ∀ i s, i < n → I i s → ∃ s1, body i s = .ok s1 ∧ I (i + 1) s1) :
    ∃ s, for_loop body n s0 = .ok s ∧ I n s := by
  induction n with
  | zero => exact ⟨s0, rfl, h0⟩
  | succ n ih =>
    obtain ⟨s, hs, hI⟩ := ih (fun i s hi => hstep i s (Nat.lt_succ_of_lt hi))
    obtain ⟨s1, hb, hI1⟩ := hstep n s (Nat.lt_succ_self n) hI
    exact ⟨s1, by rw [for_loop_succ, hs, Outcome.bind_ok, hb], hI1⟩

theorem read_of_getElem? {α : Type} {a : List α} {i : Nat} {v : α} (h : a[i]? = some v) :
    read a i = .ok v := by
  simp [read, h]

theorem read_none {α : Type} {a : List α} {i : Nat} (h : a.length ≤ i) :
    read a i = .undefined := by
  simp [read, List.getElem?_eq_none h]

theorem write_of_lt {α : Type} {a : List α} {i : Nat} (v : α) (h : i < a.length) :
    write a i v = .ok (a.set i v) := by
  simp [write, h]

/-- Two cells of a row-major matrix of width `w` coincide only when their rows
and columns do. -/
theorem cell_index_inj {w r c r0 c0 : Nat} (hc : c < w) (hc0 : c0 < w) :
    r0 * w + c0 = r * w + c ↔ r0 = r ∧ c0 = c := by
  constructor
  · intro h
    have h1 := congrArg (fun t => t / w) h
    have h2 := congrArg (fun t => t % w) h
    have hw : 0 < w := by omega
    simp only [Nat.mul_comm _ w, Nat.mul_add_div hw, Nat.mul_add_mod,
      Nat.div_eq_of_lt hc, Nat.div_eq_of_lt hc0, Nat.mod_eq_of_lt hc, Nat.mod_eq_of_lt hc0,
      Nat.add_zero] at h1 h2
    exact ⟨h1, h2⟩
  · rintro ⟨rfl, rfl⟩
    rfl

theorem cell_index_lt {w r c h len : Nat} (hc : c < w) (hr : r < h) (hlen : h * w ≤ len) :
    r * w + c < len := by
  have : (r + 1) * w ≤ h * w := Nat.mul_le_mul_right w hr
  have h2 : (r + 1) * w = r * w + w := by ring
  omega

/-! ## The code matrix -/

theorem store_spec (b0 : cdma_base_station) (r0 c0 : Nat) (v : Int)
    (hc0 : c0 < b0.walsh_codes_size)
    (hlt : r0 * b0.walsh_codes_size + c0 < b0.walsh_codes.length) :
    ∃ b1, store b0 (r0 * b0.walsh_codes_size + c0) v = .ok b1 ∧
      b1.walsh_codes_size = b0.walsh_codes_size ∧
      b1.walsh_codes.length = b0.walsh_codes.length ∧
      ∀ r c, c < b0.walsh_codes_size →
        b1.walsh_codes[r * b0.walsh_codes_size + c]? =
          if r = r0 ∧ c = c0 then some v else b0.walsh_codes[r * b0.walsh_codes_size + c]? := by
  refine ⟨{ b0 with walsh_codes := b0.walsh_codes.set (r0 * b0.walsh_codes_size + c0) v }, ?_,
    rfl, by simp, ?_⟩
  · simp [store, write_of_lt v hlt]
  · intro r c hc
    simp only [List.getElem?_set, hlt, if_true, cell_index_inj hc hc0]
    by_cases h : r = r0 ∧ c = c0
    · obtain ⟨rfl, rfl⟩ := h
      simp
    · have h2 : ¬ (r0 = r ∧ c0 = c) := fun h3 => h ⟨h3.1.symm, h3.2.symm⟩
      simp [h, h2]

theorem hadamard_zero (r c : Nat) : hadamard 0 r c = 1 := rfl

theorem hadamard_succ (k r c : Nat) :
    hadamard (k + 1) r c =
      if r < 2 ^ k then
        if c < 2 ^ k then hadamard k r c else hadamard k r (c - 2 ^ k)
      else
        if c < 2 ^ k then hadamard k (r - 2 ^ k) c else - hadamard k (r - 2 ^ k) (c - 2 ^ k) :=
  rfl

/-- The function `walsh_codes_init`, called on a block that lies inside the matrix,
returns and fills exactly that block with `sign` times the Sylvester matrix. -/
theorem walsh_codes_init_spec : ∀ (k : Nat) (b0 : cdma_base_station) (x y : Nat) (sign : Int),
    x + 2 ^ k ≤ b0.walsh_codes_size →
    (y + 2 ^ k) * b0.walsh_codes_size ≤ b0.walsh_codes.length →
    ∃ b1, walsh_codes_init k b0 x y (2 ^ k) sign = .ok b1 ∧ block_written k b0 b1 x y sign
  | 0, b0, x, y, sign, hx, hy => by
    have hx1 : x < b0.walsh_codes_size := by simpa using hx
    obtain ⟨b1, h1, hs, hl, hv⟩ := store_spec b0 y x sign hx1
      (cell_index_lt hx1 (by simp : y < y + 2 ^ 0) hy)
    refine ⟨b1, by simpa [walsh_codes_init] using h1, hs, hl, ?_⟩
    intro r c hc
    rw [hv r c hc]
    simp only [pow_zero, hadamard_zero]
    split_ifs <;> first | rfl | (exfalso; omega) | simp
  | 1, b0, x, y, sign, hx, hy => by
    simp only [pow_one] at hx hy
    have hxa : x < b0.walsh_codes_size := by omega
    have hxb : x + 1 < b0.walsh_codes_size := by omega
    obtain ⟨b1, h1, hs1, hl1, hv1⟩ := store_spec b0 y x sign hxa
      (cell_index_lt hxa (by omega : y < y + 2) hy)
    rw [← hs1] at hxa hxb
    rw [← hs1, ← hl1] at hy
    obtain ⟨b2, h2, hs2, hl2, hv2⟩ := store_spec b1 y (x + 1) sign hxb
      (cell_index_lt hxb (by omega : y < y + 2) hy)
    rw [← hs2] at hxa hxb
    rw [← hs2, ← hl2] at hy
    obtain ⟨b3, h3, hs3, hl3, hv3⟩ := store_spec b2 (y + 1) x sign hxa
      (cell_index_lt hxa (by omega : y + 1 < y + 2) hy)
    rw [← hs3] at hxa hxb
    rw [← hs3, ← hl3] at hy
    obtain ⟨b4, h4, hs4, hl4, hv4⟩ := store_spec b3 (y + 1) (x + 1) (-sign) hxb
      (cell_index_lt hxb (by omega : y + 1 < y + 2) hy)
    refine ⟨b4, ?_, by omega, by omega, ?_⟩
    · simp only [walsh_codes_init, h1, Outcome.bind_ok, h2, h3, h4]
    · intro r c hc
      have e3 : b3.walsh_codes_size = b0.walsh_codes_size := by omega
      have e2 : b2.walsh_codes_size = b0.walsh_codes_size := by omega
      have e1 : b1.walsh_codes_size = b0.walsh_codes_size := by omega
      have g4 := hv4 r c (by omega)
      have g3 := hv3 r c (by omega)
      have g2 := hv2 r c (by omega)
      have g1 := hv1 r c hc
      rw [e3] at g4
      rw [e2] at g3
      rw [e1] at g2
      rw [g4, g3, g2, g1]
      simp only [pow_one, hadamard_succ, hadamard_zero, pow_zero]
      split_ifs <;> first | rfl | (exfalso; omega) | simp
  | k + 2, b0, x, y, sign, hx, hy => by
    have hS : 2 ^ (k + 2) = 2 ^ (k + 1) + 2 ^ (k + 1) := by ring
    have hstep : (2 ^ (k + 2)) >>> 1 = 2 ^ (k + 1) := by
      rw [Nat.shiftRight_eq_div_pow, pow_one, hS]
      omega
    generalize hSd : 2 ^ (k + 1) = S at hS hstep
    rw [hS] at hx hy
    have hy1 : (y + S) * b0.walsh_codes_size ≤ b0.walsh_codes.length :=
      le_trans (Nat.mul_le_mul_right _ (by omega)) hy
    have hy2 : (y + S + S) * b0.walsh_codes_size ≤ b0.walsh_codes.length := by
      rw [Nat.add_assoc]
      exact hy
    obtain ⟨b1, h1, hs1, hl1, hv1⟩ := walsh_codes_init_spec (k + 1) b0 x y sign
      (by rw [hSd]; omega) (by rw [hSd]; exact hy1)
    obtain ⟨b2, h2, hs2, hl2, hv2⟩ := walsh_codes_init_spec (k + 1) b1 (x + S) y sign
      (by rw [hSd, hs1]; omega) (by rw [hSd, hs1, hl1]; exact hy1)
    obtain ⟨b3, h3, hs3, hl3, hv3⟩ := walsh_codes_init_spec (k + 1) b2 x (y + S) sign
      (by rw [hSd, hs2, hs1]; omega) (by rw [hSd, hs2, hs1, hl2, hl1]; exact hy2)
    obtain ⟨b4, h4, hs4, hl4, hv4⟩ := walsh_codes_init_spec (k + 1) b3 (x + S) (y + S) (-sign)
      (by rw [hSd, hs3, hs2, hs1]; omega)
      (by rw [hSd, hs3, hs2, hs1, hl3, hl2, hl1]; exact hy2)
    rw [hSd] at h1 h2 h3 h4 hv1 hv2 hv3 hv4
    refine ⟨b4, ?_, by omega, by omega, ?_⟩
    · rw [hS] at hstep
      simp only [walsh_codes_init, hS, hstep, h1, Outcome.bind_ok, h2, h3, h4]
    · intro r c hc
      have e3 : b3.walsh_codes_size = b0.walsh_codes_size := by omega
      have e2 : b2.walsh_codes_size = b0.walsh_codes_size := by omega
      have e1 : b1.walsh_codes_size = b0.walsh_codes_size := by omega
      have g4 := hv4 r c (by omega)
      have g3 := hv3 r c (by omega)
      have g2 := hv2 r c (by omega)
      have g1 := hv1 r c hc
      rw [e3] at g4
      rw [e2] at g3
      rw [e1] at g2
      rw [g4, g3, g2, g1, hadamard_succ (k + 1), hSd, hS]
      simp only [Nat.sub_add_eq]
      split_ifs <;> first | rfl | (exfalso; omega) | simp

theorem create_arith : ∀ m, m < 32 →
    (2 ^ m &&& usub (2 ^ m) 1 = 0) ∧ usub (get_log2 (2 ^ m)) 1 = m := by
  decide

theorem create_cells : ∀ m, m < 31 →
    size_mul 4 (size_mul (2 ^ m) (2 ^ m)) / 4 = 2 ^ m * 2 ^ m := by
  decide

/-- For a power of two up to `2 ^ 30`, whose matrix has an allocation size that
fits a `size_t`, `cdma_base_station_create` returns the Sylvester matrix of that
order. -/
theorem cdma_base_station_create_pow (m : Nat) (hm : m < 31) :
    ∃ b, cdma_base_station_create (2 ^ m) = .ok b ∧
      b.walsh_codes_size = 2 ^ m ∧ b.walsh_codes.length = 2 ^ m * 2 ^ m ∧
      ∀ r c, r < 2 ^ m → c < 2 ^ m →
        b.walsh_codes[r * 2 ^ m + c]? = some (hadamard m r c) := by
  obtain ⟨ha, hk⟩ := create_arith m (by omega)
  obtain ⟨b, hb, hs, hl, hv⟩ := walsh_codes_init_spec m
    { walsh_codes := List.replicate (2 ^ m * 2 ^ m) 0, walsh_codes_size := 2 ^ m } 0 0 1
    (by simp) (by simp)
  refine ⟨b, ?_, hs, by simpa using hl, ?_⟩
  · simp only [cdma_base_station_create, ha, ne_eq, not_true_eq_false, if_false, hk,
      create_cells m hm]
    exact hb
  · intro r c hr hc
    have h := hv r c hc
    simp only [Nat.zero_le, Nat.zero_add, true_and, hr, hc, and_self, if_true, Nat.sub_zero,
      one_mul] at h
    exact h

theorem code_chip_create (m : Nat) (b : cdma_base_station)
    (hs : b.walsh_codes_size = 2 ^ m)
    (hv : ∀ r c, r < 2 ^ m → c < 2 ^ m → b.walsh_codes[r * 2 ^ m + c]? = some (hadamard m r c))
    (r c : Nat) (hr : r < 2 ^ m) (hc : c < 2 ^ m) :
    code_chip b r c = hadamard m r c := by
  simp [code_chip, hs, List.getD_eq_getElem?_getD, hv r c hr hc]

theorem hadamard_left (k i c : Nat) (hc : c < 2 ^ k) :
    hadamard (k + 1) i c = hadamard k (if i < 2 ^ k then i else i - 2 ^ k) c := by
  rw [hadamard_succ]
  split_ifs <;> rfl

theorem hadamard_right (k i c : Nat) :
    hadamard (k + 1) i (2 ^ k + c) =
      (if i < 2 ^ k then 1 else -1) * hadamard k (if i < 2 ^ k then i else i - 2 ^ k) c := by
  rw [hadamard_succ]
  have h : ¬ (2 ^ k + c < 2 ^ k) := by omega
  simp only [h, if_false, Nat.add_sub_cancel_left]
  split_ifs <;> simp

/-- Rows of the Sylvester matrix are pairwise orthogonal and have squared norm `2 ^ k`. -/
theorem hadamard_dot : ∀ (k i j : Nat), i < 2 ^ k → j < 2 ^ k →
    ∑ c in Finset.range (2 ^ k), hadamard k i c * hadamard k j c =
      if i = j then (2 : Int) ^ k else 0
  | 0, i, j, hi, hj => by
    have hi0 : i = 0 := by simpa using hi
    have hj0 : j = 0 := by simpa using hj
    subst hi0 hj0
    simp [hadamard_zero]
  | k + 1, i, j, hi, hj => by
    have hS : 2 ^ (k + 1) = 2 ^ k + 2 ^ k := by ring
    rw [hS, Finset.sum_range_add]
    have e1 : ∀ c ∈ Finset.range (2 ^ k),
        hadamard (k + 1) i c * hadamard (k + 1) j c =
          hadamard k (if i < 2 ^ k then i else i - 2 ^ k) c *
            hadamard k (if j < 2 ^ k then j else j - 2 ^ k) c := by
      intro c hc
      rw [hadamard_left k i c (Finset.mem_range.mp hc),
        hadamard_left k j c (Finset.mem_range.mp hc)]
    have e2 : ∀ c ∈ Finset.range (2 ^ k),
        hadamard (k + 1) i (2 ^ k + c) * hadamard (k + 1) j (2 ^ k + c) =
          ((if i < 2 ^ k then 1 else -1) * (if j < 2 ^ k then 1 else -1)) *
            (hadamard k (if i < 2 ^ k then i else i - 2 ^ k) c *
              hadamard k (if j < 2 ^ k then j else j - 2 ^ k) c) := by
      intro c _
      rw [hadamard_right, hadamard_right]
      ring
    rw [Finset.sum_congr rfl e1, Finset.sum_congr rfl e2, ← Finset.mul_sum,
      hadamard_dot k _ _ (by split_ifs <;> omega) (by split_ifs <;> omega)]
    have hp : (2 : Int) ^ (k + 1) = 2 ^ k + 2 ^ k := by ring
    rw [hp]
    rw [hS] at hi hj
    by_cases h1 : i < 2 ^ k <;> by_cases h2 : j < 2 ^ k <;> by_cases h3 : i = j <;>
      simp only [h1, h2, h3, if_true, if_false] <;> omega

/-- A positive number has no bit in common with its predecessor exactly when it
is a power of two. -/
theorem and_pred_eq_zero_iff : ∀ (n : Nat), 1 ≤ n → (n &&& (n - 1) = 0 ↔ ∃ m, n = 2 ^ m) := by
  intro n
  induction n using Nat.strong_induction_on with
  | _ n ih =>
    intro hn
    constructor
    · intro h
      by_cases h1 : n = 1
      · exact ⟨0, by simpa using h1⟩
      · have hdiv := Nat.and_div_two (a := n) (b := n - 1)
        rw [h] at hdiv
        rcases Nat.mod_two_eq_zero_or_one n with hpar | hpar
        · have hq : (n - 1) / 2 = n / 2 - 1 := by omega
          rw [hq] at hdiv
          obtain ⟨m, hm⟩ := (ih (n / 2) (by omega) (by omega)).mp (by simpa using hdiv.symm)
          exact ⟨m + 1, by rw [pow_succ, ← hm]; omega⟩
        · have hq : (n - 1) / 2 = n / 2 := by omega
          rw [hq, Nat.and_self] at hdiv
          omega
    · rintro ⟨m, rfl⟩
      rw [Nat.and_pow_two_sub_one_eq_mod, Nat.mod_self]

theorem usub_one_of_pos (n : Nat) (h1 : 1 ≤ n) (h32 : n < 2 ^ 32) : usub n 1 = n - 1 := by
  unfold usub
  omega

theorem pow_lt_32 {m : Nat} (h : 2 ^ m < 2 ^ 32) : m < 32 :=
  (Nat.pow_lt_pow_iff_right (by decide : 1 < 2)).mp h

theorem pow_le_30 {m : Nat} (h : 2 ^ m ≤ 2 ^ 30) : m < 31 :=
  Nat.lt_succ_of_le ((Nat.pow_le_pow_iff_right (by decide : 1 < 2)).mp h)

/-- On a matrix without cells every call of `walsh_codes_init` is undefined. -/
theorem walsh_codes_init_nil : ∀ (k : Nat) (b0 : cdma_base_station) (x y s : Nat) (sign : Int),
    b0.walsh_codes = [] → walsh_codes_init k b0 x y s sign = .undefined
  | 0, b0, x, y, s, sign, h => by
    simp [walsh_codes_init, store, write, h]
  | 1, b0, x, y, s, sign, h => by
    simp [walsh_codes_init, store, write, h]
  | k + 2, b0, x, y, s, sign, h => by
    simp [walsh_codes_init, walsh_codes_init_nil (k + 1) b0 x y (s >>> 1) sign h]

/-- For `n = 2 ^ 31` the allocation size `sizeof(int) * (n * n)` is `2 ^ 64`, which
is `0` in `size_t`: the matrix has no cells and the first store of
`walsh_codes_init` is out of bounds. -/
theorem create_undefined_2_pow_31 : cdma_base_station_create (2 ^ 31) = .undefined := by
  have h0 : 2 ^ 31 &&& usub (2 ^ 31) 1 = 0 := by decide
  have hc : size_mul 4 (size_mul (2 ^ 31) (2 ^ 31)) / 4 = 0 := by decide
  simp only [cdma_base_station_create, h0, ne_eq, not_true_eq_false, if_false, hc]
  exact walsh_codes_init_nil _ _ _ _ _ _ rfl

/-- A power of two that an `unsigned int` holds and for which
`cdma_base_station_create` returns is at most `2 ^ 30`. -/
theorem pow_lt_31_of_create {m : Nat} {b : cdma_base_station} (h32 : 2 ^ m < 2 ^ 32)
    (hb : cdma_base_station_create (2 ^ m) = .ok b) : m < 31 := by
  have hm := pow_lt_32 h32
  by_contra h
  have h31 : m = 31 := by omega
  subst h31
  rw [create_undefined_2_pow_31] at hb
  cases hb

/-- Orthogonality of the generated code set (claim C3, as amended): for every
power of two `n ≤ 2 ^ 30`, `cdma_base_station_create n` returns a matrix in which
two distinct rows have dot product `0` and every row has dot product `n` with
itself. -/
theorem walsh_rows_orthogonal (n : Nat) (h30 : n ≤ 2 ^ 30) (hp : ∃ m, n = 2 ^ m) :
    ∃ b, cdma_base_station_create n = .ok b ∧ b.walsh_codes_size = n ∧
      ∀ i j, i < n → j < n → row_dot b i j = if i = j then (n : Int) else 0 := by
  obtain ⟨m, rfl⟩ := hp
  obtain ⟨b, hb, hs, _, hv⟩ := cdma_base_station_create_pow m (pow_le_30 h30)
  refine ⟨b, hb, hs, ?_⟩
  intro i j hi hj
  have e : ∀ c ∈ Finset.range (2 ^ m),
      code_chip b i c * code_chip b j c = hadamard m i c * hadamard m j c := by
    intro c hc
    rw [code_chip_create m b hs hv i c hi (Finset.mem_range.mp hc),
      code_chip_create m b hs hv j c hj (Finset.mem_range.mp hc)]
  rw [row_dot, hs, Finset.sum_congr rfl e, hadamard_dot m i j hi hj]
  simp

theorem walsh_rows_orthogonal_witness :
    ∃ b, cdma_base_station_create 8 = .ok b ∧ b.walsh_codes_size = 8 ∧
      ∀ i j, i < 8 → j < 8 → row_dot b i j = if i = j then (8 : Int) else 0 :=
  walsh_rows_orthogonal 8 (by decide) ⟨3, by decide⟩

/-- Orthogonality of the generated code set (claim C3) fails for the power of two
`n = 2 ^ 31`, which an `unsigned int` holds: the allocation size wraps to `0`,
so `cdma_base_station_create` stores out of bounds and returns no matrix at all,
in particular none with orthogonal rows. -/
theorem no_orthogonal_rows_at_2_pow_31 :
    (2 ^ 31 < 2 ^ 32) ∧ (∃ m, 2 ^ 31 = 2 ^ m) ∧
    size_mul 4 (size_mul (2 ^ 31) (2 ^ 31)) = 0 ∧
    cdma_base_station_create (2 ^ 31) = .undefined ∧
    ¬ ∃ b, cdma_base_station_create (2 ^ 31) = .ok b ∧
      ∀ i j, i < 2 ^ 31 → j < 2 ^ 31 →
        row_dot b i j = if i = j then ((2 ^ 31 : Nat) : Int) else 0 := by
  refine ⟨by decide, ⟨31, rfl⟩, by decide, create_undefined_2_pow_31, ?_⟩
  rintro ⟨b, hb, _⟩
  rw [create_undefined_2_pow_31] at hb
  cases hb

/-- Size validation for positive sizes (claim C8, as amended): for `1 ≤ n` held by
an `unsigned int`, `cdma_base_station_create n` reports `CDMA_INVALID_ARGUMENT`
exactly when `n` is not a power of two, and for a power of two `n ≤ 2 ^ 30` it
returns a code set of size `n` with `n * n` cells. -/
theorem create_size_validation (n : Nat) (h1 : 1 ≤ n) (h32 : n < 2 ^ 32) :
    (cdma_base_station_create n = .error .CDMA_INVALID_ARGUMENT ↔ ¬ ∃ m, n = 2 ^ m) ∧
    ((∃ m, n = 2 ^ m) → n ≤ 2 ^ 30 → ∃ b, cdma_base_station_create n = .ok b ∧
      b.walsh_codes_size = n ∧ b.walsh_codes.length = n * n) := by
  have hsucc : (∃ m, n = 2 ^ m) → n ≤ 2 ^ 30 → ∃ b, cdma_base_station_create n = .ok b ∧
      b.walsh_codes_size = n ∧ b.walsh_codes.length = n * n := by
    rintro ⟨m, rfl⟩ h30
    obtain ⟨b, hb, hs, hl, _⟩ := cdma_base_station_create_pow m (pow_le_30 h30)
    exact ⟨b, hb, hs, hl⟩
  refine ⟨?_, hsucc⟩
  constructor
  · rintro he ⟨m, rfl⟩
    have hm := pow_lt_32 h32
    by_cases h31 : m = 31
    · subst h31
      rw [create_undefined_2_pow_31] at he
      cases he
    · obtain ⟨b, hb, _⟩ := cdma_base_station_create_pow m (by omega)
      rw [hb] at he
      cases he
  · intro hnp
    have hne : n &&& usub n 1 ≠ 0 := by
      rw [usub_one_of_pos n h1 h32]
      exact fun h0 => hnp ((and_pred_eq_zero_iff n h1).mp h0)
    simp [cdma_base_station_create, hne]

theorem create_size_validation_witness :
    (cdma_base_station_create 3 = .error .CDMA_INVALID_ARGUMENT ∧
     cdma_base_station_create 5 = .error .CDMA_INVALID_ARGUMENT ∧
     cdma_base_station_create 6 = .error .CDMA_INVALID_ARGUMENT ∧
     cdma_base_station_create 7 = .error .CDMA_INVALID_ARGUMENT ∧
     cdma_base_station_create 9 = .error .CDMA_INVALID_ARGUMENT) ∧
    (∀ n ∈ [1, 2, 4, 8, 16, 32], ∃ b, cdma_base_station_create n = .ok b ∧
      b.walsh_codes_size = n ∧ b.walsh_codes.length = n * n) := by
  have bad : ∀ n, 1 ≤ n → n < 2 ^ 32 → n &&& (n - 1) ≠ 0 →
      cdma_base_station_create n = .error .CDMA_INVALID_ARGUMENT := fun n h1 h32 h =>
    (create_size_validation n h1 h32).1.mpr fun hp => h ((and_pred_eq_zero_iff n h1).mpr hp)
  refine ⟨⟨bad 3 (by decide) (by decide) (by decide), bad 5 (by decide) (by decide) (by decide),
    bad 6 (by decide) (by decide) (by decide), bad 7 (by decide) (by decide) (by decide),
    bad 9 (by decide) (by decide) (by decide)⟩, ?_⟩
  intro n hn
  simp only [List.mem_cons, List.mem_singleton, List.not_mem_nil, or_false] at hn
  rcases hn with rfl | rfl | rfl | rfl | rfl | rfl
  · exact (create_size_validation 1 (by decide) (by decide)).2 ⟨0, by decide⟩ (by decide)
  · exact (create_size_validation 2 (by decide) (by decide)).2 ⟨1, by decide⟩ (by decide)
  · exact (create_size_validation 4 (by decide) (by decide)).2 ⟨2, by decide⟩ (by decide)
  · exact (create_size_validation 8 (by decide) (by decide)).2 ⟨3, by decide⟩ (by decide)
  · exact (create_size_validation 16 (by decide) (by decide)).2 ⟨4, by decide⟩ (by decide)
  · exact (create_size_validation 32 (by decide) (by decide)).2 ⟨5, by decide⟩ (by decide)

/-- Size validation (claim C8) fails for `n = 2 ^ 31`: it is a power of two that
an `unsigned int` holds, yet `cdma_base_station_create` does not succeed with a
code set of size `n`, because the allocation size `4 * n * n` wraps to `0` in
`size_t` and the first store is out of bounds. -/
theorem create_does_not_succeed_at_2_pow_31 :
    (1 ≤ 2 ^ 31) ∧ (∃ m, 2 ^ 31 = 2 ^ m) ∧
    cdma_base_station_create (2 ^ 31) ≠ .error .CDMA_INVALID_ARGUMENT ∧
    ¬ ∃ b, cdma_base_station_create (2 ^ 31) = .ok b ∧ b.walsh_codes_size = 2 ^ 31 := by
  refine ⟨by decide, ⟨31, rfl⟩, ?_, ?_⟩
  · rw [create_undefined_2_pow_31]
    exact fun h => by cases h
  · rintro ⟨b, hb, _⟩
    rw [create_undefined_2_pow_31] at hb
    cases hb

/-- Size zero (claim C9): `cdma_base_station_create 0` passes the power-of-two
test, allocates a matrix without cells and calls `walsh_codes_init` with order
`get_log2 0 - 1`, which wraps to `4294967295`; the first store is out of bounds.
The call is undefined and does not report `CDMA_INVALID_ARGUMENT`. -/
theorem create_zero_not_rejected :
    cdma_base_station_create 0 = .undefined ∧
    cdma_base_station_create 0 ≠ .error .CDMA_INVALID_ARGUMENT ∧
    (0 &&& usub 0 1 = 0) ∧ usub (get_log2 0) 1 = 4294967295 := by
  have h0 : 0 &&& usub 0 1 = 0 := by decide
  have hu : cdma_base_station_create 0 = .undefined := by
    simp only [cdma_base_station_create, h0, ne_eq, not_true_eq_false, if_false]
    exact walsh_codes_init_nil _ _ _ _ _ _ rfl
  refine ⟨hu, ?_, h0, by decide⟩
  rw [hu]
  exact fun h => by cases h

/-! ## Loops that fill a buffer cell by cell -/

/-- A loop whose iteration `j` stores `f j` at `buffer[index++]` fills `m`
consecutive cells and leaves the other cells alone. -/
theorem fill_loop {α : Type} (body : Nat → List α × Nat → Outcome (List α × Nat))
    (f : Nat → α) (m : Nat)
    (hbody : ∀ j st, j < m →
      body j st = (write st.1 st.2 (f j)).bind fun a => .ok (a, st.2 + 1))
    (st0 : List α × Nat) (hroom : st0.2 + m ≤ st0.1.length) :
    ∃ st, for_loop body m st0 = .ok st ∧ st.2 = st0.2 + m ∧
      st.1.length = st0.1.length ∧
      ∀ p, st.1[p]? =
        if st0.2 ≤ p ∧ p < st0.2 + m then some (f (p - st0.2)) else st0.1[p]? := by
  have key := for_loop_inv body
    (fun j st => st.2 = st0.2 + j ∧ st.1.length = st0.1.length ∧
      ∀ p, st.1[p]? =
        if st0.2 ≤ p ∧ p < st0.2 + j then some (f (p - st0.2)) else st0.1[p]?)
    m st0
    ⟨rfl, rfl, fun p => by
      have h : ¬ (st0.2 ≤ p ∧ p < st0.2 + 0) := by omega
      rw [if_neg h]⟩
    (by
      rintro j st hj ⟨h2, hl, hv⟩
      have hlt : st.2 < st.1.length := by omega
      refine ⟨(st.1.set st.2 (f j), st.2 + 1), ?_, ?_, ?_, ?_⟩
      · rw [hbody j st hj, write_of_lt _ hlt]
        rfl
      · show st.2 + 1 = st0.2 + (j + 1)
        omega
      · simpa using hl
      · intro p
        show (st.1.set st.2 (f j))[p]? = _
        rw [List.getElem?_set, hv p]
        by_cases hp : st.2 = p
        · have e : p - st0.2 = j := by omega
          have c1 : st0.2 ≤ p ∧ p < st0.2 + (j + 1) := by omega
          simp only [hp, if_true, c1, and_self, e]
          rw [if_pos (by omega)]
        · have c1 : (st0.2 ≤ p ∧ p < st0.2 + (j + 1)) ↔ (st0.2 ≤ p ∧ p < st0.2 + j) := by
            omega
          simp only [hp, if_false, c1])
  exact key

/-- A loop whose iteration `i` fills the next `m` cells with `g i 0`, ...,
`g i (m - 1)` writes the buffer row by row. -/
theorem fill_rows {α : Type} (outer : Nat → List α × Nat → Outcome (List α × Nat))
    (g : Nat → Nat → α) (n m : Nat) (buf : List α)
    (houter : ∀ i st, i < n → st.2 + m ≤ st.1.length →
      ∃ st1, outer i st = .ok st1 ∧ st1.2 = st.2 + m ∧ st1.1.length = st.1.length ∧
        ∀ p, st1.1[p]? =
          if st.2 ≤ p ∧ p < st.2 + m then some (g i (p - st.2)) else st.1[p]?)
    (hroom : n * m ≤ buf.length) :
    ∃ st, for_loop outer n (buf, 0) = .ok st ∧ st.2 = n * m ∧
      st.1.length = buf.length ∧
      ∀ p, st.1[p]? = if p < n * m then some (g (p / m) (p % m)) else buf[p]? := by
  have key := for_loop_inv outer
    (fun i st => st.2 = i * m ∧ st.1.length = buf.length ∧
      ∀ p, st.1[p]? = if p < i * m then some (g (p / m) (p % m)) else buf[p]?)
    n (buf, 0)
    ⟨by simp, rfl, fun p => by simp⟩
    (by
      rintro i st hi ⟨h2, hl, hv⟩
      have hle : (i + 1) * m ≤ n * m := Nat.mul_le_mul_right m hi
      have hexp : (i + 1) * m = i * m + m := by ring
      obtain ⟨st1, h1, h12, h1l, h1v⟩ := houter i st hi (by omega)
      refine ⟨st1, h1, by omega, by omega, ?_⟩
      intro p
      rw [h1v p, hv p, h2, hexp]
      by_cases hp : i * m ≤ p ∧ p < i * m + m
      · have hm : 0 < m := by omega
        have hq : p = m * i + (p - i * m) := by
          rw [Nat.mul_comm m i]
          omega
        have hd : p / m = i := by
          rw [hq, Nat.mul_add_div hm, Nat.div_eq_of_lt (by omega)]
          rfl
        have hmod : p % m = p - i * m := by
          rw [hq, Nat.mul_add_mod, Nat.mod_eq_of_lt (by omega)]
          rw [Nat.mul_comm m i]
          omega
        rw [if_pos hp, if_pos (by omega), hd, hmod]
      · rw [if_neg hp]
        by_cases hp2 : p < i * m
        · rw [if_pos hp2, if_pos (by omega)]
        · rw [if_neg hp2, if_neg (by omega)])
  exact key

/-! ## Registration of a message -/

theorem extract_bit (c s : Nat) : (c &&& 1 <<< s) >>> s > 0 ↔ c.testBit s = true := by
  rw [Nat.one_shiftLeft]
  constructor
  · intro h
    obtain ⟨i, hi⟩ := Nat.ne_zero_implies_bit_true (Nat.pos_iff_ne_zero.mp h)
    rw [Nat.testBit_shiftRight, Nat.testBit_and, Nat.testBit_two_pow] at hi
    simp only [Bool.and_eq_true, decide_eq_true_eq] at hi
    have h0 : i = 0 := by omega
    rw [h0] at hi
    exact hi.1
  · intro h
    apply Nat.pos_of_ne_zero
    intro h0
    have h1 : ((c &&& 2 ^ s) >>> s).testBit 0 = true := by
      rw [Nat.testBit_shiftRight, Nat.testBit_and, Nat.testBit_two_pow]
      simp [h]
    rw [h0] at h1
    simp at h1

theorem add_station_bit_eq (c j : Nat) (st : List Int × Nat) :
    add_station_bit c j st =
      (write st.1 st.2 (bit_sign c j)).bind fun a => .ok (a, st.2 + 1) := by
  have hs : CODE_LENGTH - 1 - j = 7 - j := rfl
  have hv : (if (c &&& 1 <<< (7 - j)) >>> (7 - j) > 0 then (1 : Int) else -1) = bit_sign c j := by
    unfold bit_sign
    by_cases h : c.testBit (7 - j) = true
    · rw [if_pos ((extract_bit c (7 - j)).mpr h), if_pos h]
    · rw [if_neg (fun h2 => h ((extract_bit c (7 - j)).mp h2)), if_neg h]
  simp only [add_station_bit, hs, hv]

theorem getElem?_bit_signs (message : List Nat) (p : Nat) :
    (bit_signs message)[p]? =
      if p < 8 * message.length then some (bit_sign (message.getD (p / 8) 0) (p % 8))
      else none := by
  unfold bit_signs
  by_cases hp : p < 8 * message.length
  · rw [if_pos hp, List.getElem?_map, List.getElem?_range hp]
    rfl
  · rw [if_neg hp]
    apply List.getElem?_eq_none
    simpa using hp

theorem length_bit_signs (message : List Nat) :
    (bit_signs message).length = 8 * message.length := by
  simp [bit_signs]

/-- The encoding loops of `cdma_transmitter_add_station` return the bit-sign
sequence of the message. -/
theorem add_station_encode (message : List Nat) :
    for_loop (add_station_char message) message.length
        (List.replicate (CODE_LENGTH * message.length) 0, 0) =
      .ok (bit_signs message, message.length * 8) := by
  obtain ⟨st, hst, h2, hl, hv⟩ := fill_rows (add_station_char message)
    (fun i j => bit_sign (message.getD i 0) j) message.length 8
    (List.replicate (CODE_LENGTH * message.length) 0)
    (by
      intro i st hi hroom
      have hread : read message i = .ok (message.getD i 0) := by
        apply read_of_getElem?
        rw [List.getD_eq_getElem?_getD, List.getElem?_eq_getElem hi]
        rfl
      have := fill_loop (add_station_bit (message.getD i 0))
        (fun j => bit_sign (message.getD i 0) j) 8
        (fun j st _ => add_station_bit_eq _ j st) st hroom
      simpa [add_station_char, hread, CODE_LENGTH, BIT_LENGTH] using this)
    (by simp [CODE_LENGTH, BIT_LENGTH, Nat.mul_comm])
  rw [hst]
  have hlist : st.1 = bit_signs message := by
    apply List.ext_getElem?
    intro p
    rw [hv p, getElem?_bit_signs, Nat.mul_comm]
    by_cases hp : p < 8 * message.length
    · rw [if_pos hp, if_pos hp]
    · rw [if_neg hp, if_neg hp]
      apply List.getElem?_eq_none
      simp only [List.length_replicate, CODE_LENGTH, BIT_LENGTH]
      omega
  have : st = (bit_signs message, message.length * 8) := Prod.ext hlist h2
  rw [this]

/-- A registration whose length test passes and that finds a free slot stores
the bit-sign sequence in that slot and returns `CDMA_SUCCESS`. -/
theorem add_station_ok (t : cdma_transmitter) (message : List Nat)
    (hsize : t.prev_message_size = 0 ∨ t.prev_message_size = message.length)
    (hslot : t.codes_size < t.codes.length) :
    cdma_transmitter_add_station t message =
      .ok (.CDMA_SUCCESS,
        { base_station := t.base_station
          codes := t.codes.set t.codes_size (bit_signs message)
          codes_size := t.codes_size + 1
          prev_message_size := message.length }) := by
  unfold cdma_transmitter_add_station
  simp only [add_station_encode, Outcome.bind_ok]
  rcases hsize with h0 | h1
  · simp [h0, write_of_lt _ hslot]
  · by_cases h0 : t.prev_message_size = 0
    · simp [h0, write_of_lt _ hslot]
    · simp [h0, h1, write_of_lt _ hslot]

/-- A registration with no free slot left writes past the slot array. -/
theorem add_station_full (t : cdma_transmitter) (message : List Nat)
    (hsize : t.prev_message_size = 0 ∨ t.prev_message_size = message.length)
    (hslot : ¬ t.codes_size < t.codes.length) :
    cdma_transmitter_add_station t message = .undefined := by
  unfold cdma_transmitter_add_station
  simp only [add_station_encode, Outcome.bind_ok]
  rcases hsize with h0 | h1
  · simp [h0, write, hslot]
  · by_cases h0 : t.prev_message_size = 0
    · simp [h0, write, hslot]
    · simp [h0, h1, write, hslot]

/-- A registration whose length differs from the recorded non-zero length is
rejected and leaves the transmitter as it was. -/
theorem add_station_bad (t : cdma_transmitter) (message : List Nat)
    (h0 : t.prev_message_size ≠ 0) (hne : t.prev_message_size ≠ message.length) :
    cdma_transmitter_add_station t message = .ok (.CDMA_BAD_MESSAGE_SIZE, t) := by
  unfold cdma_transmitter_add_station
  simp [h0, hne]

/-- Registration (claim C6): when `cdma_transmitter_add_station` returns
`CDMA_SUCCESS`, the station count grows by one and the slot of the next station
holds a sequence of `8 * strlen(message)` signs whose entry `8 * i + j` is `+1`
if bit `7 - j` of character `i` is set and `-1` otherwise; no other slot changes. -/
theorem add_station_appends_bit_signs (t : cdma_transmitter) (message : List Nat)
    (r : cdma_transmitter)
    (h : cdma_transmitter_add_station t message = .ok (.CDMA_SUCCESS, r)) :
    r.codes_size = t.codes_size + 1 ∧
    ∃ code, r.codes = t.codes.set t.codes_size code ∧
      r.codes[t.codes_size]? = some code ∧
      code.length = 8 * message.length ∧
      ∀ i j, i < message.length → j < 8 →
        code[8 * i + j]? = some (if (message.getD i 0).testBit (7 - j) then 1 else -1) := by
  by_cases hsize : t.prev_message_size = 0 ∨ t.prev_message_size = message.length
  · by_cases hslot : t.codes_size < t.codes.length
    · rw [add_station_ok t message hsize hslot] at h
      injection h with h
      injection h with _ h
      subst h
      refine ⟨rfl, bit_signs message, rfl, ?_, length_bit_signs message, ?_⟩
      · simp [List.getElem?_set, hslot]
      · intro i j hi hj
        rw [getElem?_bit_signs, if_pos (by omega)]
        have h1 : (8 * i + j) / 8 = i := by omega
        have h2 : (8 * i + j) % 8 = j := by omega
        rw [h1, h2]
        rfl
    · rw [add_station_full t message hsize hslot] at h
      cases h
  · rw [add_station_bad t message (fun h0 => hsize (Or.inl h0))
      (fun h1 => hsize (Or.inr h1))] at h
    injection h with h
    injection h with h _
    cases h

theorem add_station_appends_bit_signs_witness :
    ∃ t r, cdma_transmitter_create { walsh_codes := [1, 1, 1, -1], walsh_codes_size := 2 } = .ok t ∧
      cdma_transmitter_add_station t [65] = .ok (.CDMA_SUCCESS, r) ∧
      r.codes_size = t.codes_size + 1 ∧
      ∃ code, r.codes = t.codes.set t.codes_size code ∧
        r.codes[t.codes_size]? = some code ∧
        code.length = 8 * [65].length ∧
        ∀ i j, i < [65].length → j < 8 →
          code[8 * i + j]? = some (if ([65].getD i 0).testBit (7 - j) then 1 else -1) :=
  ⟨{ base_station := { walsh_codes := [1, 1, 1, -1], walsh_codes_size := 2 }
     codes := [[], []], codes_size := 0, prev_message_size := 0 },
   { base_station := { walsh_codes := [1, 1, 1, -1], walsh_codes_size := 2 }
     codes := [[-1, 1, -1, -1, -1, -1, -1, 1], []], codes_size := 1, prev_message_size := 1 },
   by decide, by decide, add_station_appends_bit_signs _ [65] _ (by decide)⟩

/-- Uniform-length enforcement (claim C10) fails after an empty first message: on
a fresh transmitter for a code set of size 2, registering the empty message and
then the one-character message `"a"` returns `CDMA_SUCCESS` twice, since the
recorded length `0` also means that no length is recorded; the following
`cdma_transmitter_send` reads past the empty sign sequence of station 0. -/
theorem empty_first_message_defeats_length_check :
    ((cdma_base_station_create 2).bind fun b =>
      (cdma_transmitter_create b).bind fun t =>
      (cdma_transmitter_add_station t []).bind fun r1 =>
      (cdma_transmitter_add_station r1.2 [97]).bind fun r2 =>
      .ok (r1.1, r2.1, r2.2.codes_size, r2.2.prev_message_size)) =
        .ok (.CDMA_SUCCESS, .CDMA_SUCCESS, 2, 1) ∧
    ((cdma_base_station_create 2).bind fun b =>
      (cdma_transmitter_create b).bind fun t =>
      (cdma_transmitter_add_station t []).bind fun r1 =>
      (cdma_transmitter_add_station r1.2 [97]).bind fun r2 =>
      cdma_transmitter_send r2.2) = .undefined := by
  decide

/-! ## The transmitter -/

theorem read_getD {α : Type} {a : List α} {i : Nat} (d : α) (h : i < a.length) :
    read a i = .ok (a.getD i d) := by
  apply read_of_getElem?
  rw [List.getD_eq_getElem?_getD, List.getElem?_eq_getElem h]
  rfl

theorem getD_of_getElem? {α : Type} {a : List α} {i : Nat} {v : α} (d : α)
    (h : a[i]? = some v) : a.getD i d = v := by
  rw [List.getD_eq_getElem?_getD, h]
  rfl

/-- The function `get_encoded_code` returns the outer product of the bit signs
with the code row that starts at `walsh_codes_shift`. -/
theorem get_encoded_code_spec (code walsh_codes : List Int) (shift n cs : Nat)
    (hcode : cs ≤ code.length) (hrow : shift + n ≤ walsh_codes.length) :
    ∃ encoded, get_encoded_code code walsh_codes shift n cs = .ok encoded ∧
      encoded.length = n * cs ∧
      ∀ p, p < cs * n →
        encoded[p]? = some (code.getD (p / n) 0 * walsh_codes.getD (shift + p % n) 0) := by
  obtain ⟨st, hst, _, hl, hv⟩ := fill_rows
    (encoded_code_bit code walsh_codes shift n)
    (fun i j => code.getD i 0 * walsh_codes.getD (shift + j) 0) cs n
    (List.replicate (n * cs) 0)
    (by
      intro i st hi hroom
      have := fill_loop (encoded_code_chip walsh_codes shift (code.getD i 0))
        (fun j => code.getD i 0 * walsh_codes.getD (shift + j) 0) n
        (fun j st hj => by
          simp only [encoded_code_chip, read_getD (0 : Int) (by omega : shift + j < walsh_codes.length),
            Outcome.bind_ok])
        st hroom
      simpa [encoded_code_bit, read_getD (0 : Int) (by omega : i < code.length)] using this)
    (by simp [Nat.mul_comm])
  refine ⟨st.1, by simp [get_encoded_code, hst], by simpa using hl, ?_⟩
  intro p hp
  rw [hv p, if_pos hp]

/-- The accumulation loop of `cdma_transmitter_send` adds `encoded` to the first
`size` cells of the stream. -/
theorem send_accumulate_spec (encoded acc : List Int) (size : Nat)
    (hacc : size ≤ acc.length) (henc : size ≤ encoded.length) :
    ∃ out, for_loop (send_accumulate encoded) size acc = .ok out ∧
      out.length = acc.length ∧
      ∀ p, out[p]? =
        if p < size then some (acc.getD p 0 + encoded.getD p 0) else acc[p]? := by
  have key := for_loop_inv (send_accumulate encoded)
    (fun j out => out.length = acc.length ∧
      ∀ p, out[p]? = if p < j then some (acc.getD p 0 + encoded.getD p 0) else acc[p]?)
    size acc ⟨rfl, fun p => by simp⟩
    (by
      rintro j out hj ⟨hl, hv⟩
      have hjl : j < out.length := by omega
      have hoj : out.getD j 0 = acc.getD j 0 := by
        rw [List.getD_eq_getElem?_getD, hv j, if_neg (by omega), ← List.getD_eq_getElem?_getD]
      refine ⟨out.set j (acc.getD j 0 + encoded.getD j 0), ?_, by simpa using hl, ?_⟩
      · simp only [send_accumulate, read_getD (0 : Int) hjl,
          read_getD (0 : Int) (by omega : j < encoded.length), Outcome.bind_ok,
          write_of_lt _ hjl, hoj]
      · intro p
        rw [List.getElem?_set, hv p]
        by_cases hp : j = p
        · subst hp
          simp [hjl]
        · rw [if_neg hp]
          by_cases hp2 : p < j
          · rw [if_pos hp2, if_pos (by omega)]
          · rw [if_neg hp2, if_neg (by omega)])
  exact key

/-- The function `cdma_transmitter_send` returns the superposition of the outer
products of the registered sign sequences with their code rows. -/
theorem send_spec (t : cdma_transmitter) (b : Nat → List Int)
    (hcodes : ∀ i, i < t.codes_size →
      t.codes[i]? = some (b i) ∧ t.prev_message_size * 8 ≤ (b i).length)
    (hrows : t.codes_size * t.base_station.walsh_codes_size ≤
      t.base_station.walsh_codes.length) :
    ∃ e, cdma_transmitter_send t = .ok e ∧
      e.size = t.prev_message_size * 8 * t.base_station.walsh_codes_size ∧
      e.encoded.length = e.size ∧
      ∀ p, p < e.size →
        e.encoded[p]? = some (∑ i in Finset.range t.codes_size,
          (b i).getD (p / t.base_station.walsh_codes_size) 0 *
            t.base_station.walsh_codes.getD
              (t.base_station.walsh_codes_size * i + p % t.base_station.walsh_codes_size) 0) := by
  generalize hn : t.base_station.walsh_codes_size = n at *
  generalize hW : t.base_station.walsh_codes = W at *
  generalize hL : t.prev_message_size = L at *
  have key := for_loop_inv (send_station t (L * 8) (L * 8 * n))
    (fun k acc => acc.length = L * 8 * n ∧
      ∀ p, p < L * 8 * n →
        acc[p]? = some (∑ i in Finset.range k, (b i).getD (p / n) 0 * W.getD (n * i + p % n) 0))
    t.codes_size (List.replicate (L * 8 * n) 0)
    ⟨by simp, fun p hp => by simp [hp]⟩
    (by
      rintro i acc hi ⟨hl, hv⟩
      obtain ⟨hci, hbi⟩ := hcodes i hi
      have hle : (i + 1) * n ≤ t.codes_size * n := Nat.mul_le_mul_right n hi
      have hexp : (i + 1) * n = n * i + n := by ring
      obtain ⟨enc, henc, hel, hev⟩ := get_encoded_code_spec (b i) W (n * i) n (L * 8) hbi
        (by omega)
      obtain ⟨out, hout, hol, hov⟩ := send_accumulate_spec enc acc (L * 8 * n)
        (by omega) (by rw [hel, Nat.mul_comm])
      refine ⟨out, ?_, by omega, ?_⟩
      · simp only [send_station, read_of_getElem? hci, Outcome.bind_ok, hn, hW, henc, hout]
      · intro p hp
        rw [hov p, if_pos hp, Finset.sum_range_succ, getD_of_getElem? 0 (hv p hp),
          getD_of_getElem? 0 (hev p hp)])
  obtain ⟨enc, henc, hl, hv⟩ := key
  refine ⟨{ encoded := enc, size := L * 8 * n }, ?_, rfl, hl, hv⟩
  simp only [cdma_transmitter_send, hL, hn, CODE_LENGTH, BIT_LENGTH, Nat.one_mul, henc,
    Outcome.bind_ok]

/-- Registering messages of one common length `L` while slots remain: every call
succeeds, and the new slots hold the bit-sign sequences in registration order. -/
theorem add_stations_spec (L : Nat) : ∀ (messages : List (List Nat)) (t : cdma_transmitter),
    (∀ m ∈ messages, m.length = L) →
    (t.prev_message_size = 0 ∨ t.prev_message_size = L) →
    t.codes_size + messages.length ≤ t.codes.length →
    ∃ t1, add_stations t messages = .ok t1 ∧
      t1.base_station = t.base_station ∧
      t1.codes_size = t.codes_size + messages.length ∧
      t1.codes.length = t.codes.length ∧
      (t1.prev_message_size = if messages = [] then t.prev_message_size else L) ∧
      ∀ i, t1.codes[i]? =
        if t.codes_size ≤ i ∧ i < t.codes_size + messages.length then
          some (bit_signs (messages.getD (i - t.codes_size) []))
        else t.codes[i]?
  | [], t, _, _, _ => by
    refine ⟨t, rfl, rfl, rfl, rfl, by simp, ?_⟩
    intro i
    rw [if_neg]
    simp
  | message :: rest, t, hlen, hprev, hroom => by
    have hm : message.length = L := hlen message (List.mem_cons_self _ _)
    simp only [List.length_cons] at hroom
    have hstep := add_station_ok t message (by rw [hm]; exact hprev) (by omega)
    obtain ⟨t1, h1, hb, hs, hl, hp, hv⟩ := add_stations_spec L rest
      { base_station := t.base_station
        codes := t.codes.set t.codes_size (bit_signs message)
        codes_size := t.codes_size + 1
        prev_message_size := message.length }
      (fun m hmem => hlen m (List.mem_cons_of_mem _ hmem)) (Or.inr hm)
      (by simp only [List.length_set]; omega)
    refine ⟨t1, ?_, hb, ?_, by simpa using hl, ?_, ?_⟩
    · simp only [add_stations, hstep, Outcome.bind_ok, if_true]
      exact h1
    · simp only [List.length_cons]
      simp only at hs
      omega
    · rw [hp]
      simp only [hm, ite_self, if_neg (List.cons_ne_nil message rest)]
    · intro i
      rw [hv i]
      simp only [List.length_cons, List.getElem?_set]
      by_cases h0 : t.codes_size = i
      · subst h0
        simp [show t.codes_size < t.codes.length by omega]
      · by_cases h2 : t.codes_size + 1 ≤ i ∧ i < t.codes_size + 1 + rest.length
        · have e : i - t.codes_size = (i - (t.codes_size + 1)) + 1 := by omega
          rw [if_pos h2, if_pos (by omega), e, List.getD_cons_succ]
        · rw [if_neg h2, if_neg h0, if_neg (by omega)]

theorem getD_length_of_forall (messages : List (List Nat)) (L : Nat)
    (hlen : ∀ m ∈ messages, m.length = L) (i : Nat) (hi : i < messages.length) :
    (messages.getD i []).length = L := by
  rw [List.getD_eq_getElem _ _ hi]
  exact hlen _ (List.getElem_mem _)

theorem transmitter_create_eq (bs : cdma_base_station) :
    cdma_transmitter_create bs =
      .ok { base_station := bs, codes := List.replicate bs.walsh_codes_size []
            codes_size := 0, prev_message_size := 0 } := rfl

/-- State of a fresh transmitter after registering messages of one common length. -/
theorem register_spec (bs : cdma_base_station) (L : Nat) (messages : List (List Nat))
    (hlen : ∀ m ∈ messages, m.length = L) (hk : messages.length ≤ bs.walsh_codes_size) :
    ∃ t0 t, cdma_transmitter_create bs = .ok t0 ∧ add_stations t0 messages = .ok t ∧
      t.base_station = bs ∧ t.codes_size = messages.length ∧
      (t.prev_message_size = if messages = [] then 0 else L) ∧
      ∀ i, i < messages.length → t.codes[i]? = some (bit_signs (messages.getD i [])) := by
  obtain ⟨t, h1, hb, hs, _, hp, hv⟩ := add_stations_spec L messages
    { base_station := bs, codes := List.replicate bs.walsh_codes_size []
      codes_size := 0, prev_message_size := 0 } hlen (Or.inl rfl) (by simpa using hk)
  refine ⟨_, t, transmitter_create_eq bs, h1, hb, by simpa using hs, hp, ?_⟩
  intro i hi
  rw [hv i, if_pos ⟨Nat.zero_le _, by simpa using hi⟩]
  rfl

/-- Superposition (claim C5): for a code set of size `n` with `n * n` cells and
`k ≤ n` registered stations whose sign sequences `b 0`, ..., `b (k - 1)` have
length `8 * L`, `cdma_transmitter_send` returns a stream whose chip `j * n + c`
is the sum over the stations `i < k` of `b i [j]` times chip `c` of code row `i`. -/
theorem send_superposition (t : cdma_transmitter) (n k L : Nat) (b : Nat → List Int)
    (hn : t.base_station.walsh_codes_size = n)
    (hcells : t.base_station.walsh_codes.length = n * n)
    (hk : t.codes_size = k) (hkn : k ≤ n) (hL : t.prev_message_size = L)
    (hb : ∀ i, i < k → t.codes[i]? = some (b i) ∧ (b i).length = 8 * L) :
    ∃ e, cdma_transmitter_send t = .ok e ∧
      ∀ j c, j < 8 * L → c < n →
        e.encoded[j * n + c]? =
          some (∑ i in Finset.range k, (b i).getD j 0 * code_chip t.base_station i c) := by
  obtain ⟨e, he, hsize, _, hv⟩ := send_spec t b
    (fun i hi => ⟨(hb i (hk ▸ hi)).1, by rw [(hb i (hk ▸ hi)).2, hL]; omega⟩)
    (by rw [hn, hcells, hk]; exact Nat.mul_le_mul_right n hkn)
  refine ⟨e, he, ?_⟩
  intro j c hj hc
  rw [hn, hL] at hsize
  rw [hn, hk] at hv
  have hp : j * n + c < e.size := by
    rw [hsize]
    exact cell_index_lt hc hj (le_of_eq (by ring))
  have hd : (j * n + c) / n = j := by
    rw [Nat.mul_comm, Nat.mul_add_div (by omega), Nat.div_eq_of_lt hc]
    rfl
  have hm : (j * n + c) % n = c := by
    rw [Nat.mul_comm, Nat.mul_add_mod, Nat.mod_eq_of_lt hc]
  rw [hv _ hp, hd, hm]
  simp only [code_chip, hn, Nat.mul_comm n]

theorem send_superposition_witness :
    (∃ t0, cdma_transmitter_create { walsh_codes := [1, 1, 1, -1], walsh_codes_size := 2 } =
        .ok t0 ∧
      add_stations t0 [[65], [66]] =
        .ok { base_station := { walsh_codes := [1, 1, 1, -1], walsh_codes_size := 2 }
              codes := [bit_signs [65], bit_signs [66]], codes_size := 2
              prev_message_size := 1 }) ∧
    ∃ e, cdma_transmitter_send
        { base_station := { walsh_codes := [1, 1, 1, -1], walsh_codes_size := 2 }
          codes := [bit_signs [65], bit_signs [66]], codes_size := 2, prev_message_size := 1 } =
          .ok e ∧
      ∀ j c, j < 8 * 1 → c < 2 →
        e.encoded[j * 2 + c]? =
          some (∑ i in Finset.range 2, ([bit_signs [65], bit_signs [66]].getD i []).getD j 0 *
            code_chip { walsh_codes := [1, 1, 1, -1], walsh_codes_size := 2 } i c) :=
  ⟨⟨_, rfl, by decide⟩,
    send_superposition _ 2 2 1 (fun i => [bit_signs [65], bit_signs [66]].getD i [])
      rfl rfl rfl (by decide) rfl (by decide)⟩

/-- Chip stream length (claim C7): on a code set of size `n` with `n * n` cells,
after registering `k` messages of `L` characters each, for any `1 ≤ k ≤ n`,
`cdma_transmitter_send` returns a stream whose recorded size and whose number
of chips are both `L * 8 * n`, whatever `k` is. -/
theorem chip_stream_length (bs : cdma_base_station) (n L : Nat) (messages : List (List Nat))
    (hn : bs.walsh_codes_size = n) (hcells : bs.walsh_codes.length = n * n)
    (h1 : 1 ≤ messages.length) (hk : messages.length ≤ n)
    (hlen : ∀ m ∈ messages, m.length = L) :
    ∃ t0 t e, cdma_transmitter_create bs = .ok t0 ∧ add_stations t0 messages = .ok t ∧
      cdma_transmitter_send t = .ok e ∧ e.size = L * 8 * n ∧ e.encoded.length = L * 8 * n := by
  obtain ⟨t0, t, h0, ht, hb, hs, hp, hv⟩ := register_spec bs L messages hlen (hn ▸ hk)
  have hne : messages ≠ [] := by
    intro h
    rw [h] at h1
    simp at h1
  rw [if_neg hne] at hp
  obtain ⟨e, he, hsize, hl, _⟩ := send_spec t (fun i => bit_signs (messages.getD i []))
    (fun i hi => ⟨hv i (hs ▸ hi), by
      rw [length_bit_signs, hp, getD_length_of_forall messages L hlen i (hs ▸ hi)]
      omega⟩)
    (by rw [hb, hn, hcells, hs]; exact Nat.mul_le_mul_right n hk)
  rw [hb, hn, hp] at hsize
  exact ⟨t0, t, e, h0, ht, he, hsize, hsize ▸ hl⟩

theorem chip_stream_length_witness :
    ∃ t0 t e, cdma_transmitter_create { walsh_codes := [1, 1, 1, -1], walsh_codes_size := 2 } =
        .ok t0 ∧ add_stations t0 [[97, 98], [99, 100]] = .ok t ∧
      cdma_transmitter_send t = .ok e ∧ e.size = 2 * 8 * 2 ∧ e.encoded.length = 2 * 8 * 2 :=
  chip_stream_length { walsh_codes := [1, 1, 1, -1], walsh_codes_size := 2 } 2 2
    [[97, 98], [99, 100]] rfl rfl (by decide) (by decide) (by decide)

/-! ## The receiver -/

theorem receiver_chip_loop (encoded walsh_codes : List Int) (shift idx : Nat)
    (hidx : idx + CODE_LENGTH ≤ encoded.length)
    (hrow : shift + CODE_LENGTH ≤ walsh_codes.length) :
    for_loop (receiver_chip encoded walsh_codes shift) CODE_LENGTH (0, idx) =
      .ok (chip_sum_int encoded walsh_codes shift idx, idx + CODE_LENGTH) := by
  obtain ⟨st, hst, hI⟩ := for_loop_inv (receiver_chip encoded walsh_codes shift)
    (fun k st => st = (chip_sum_upto encoded walsh_codes shift idx k, idx + k))
    CODE_LENGTH (0, idx) rfl
    (by
      rintro k st hk rfl
      refine ⟨_, ?_, rfl⟩
      simp only [receiver_chip, read_getD (0 : Int) (by omega : idx + k < encoded.length),
        read_getD (0 : Int) (by omega : shift + k < walsh_codes.length), Outcome.bind_ok]
      rfl)
  rw [hst, hI]
  rfl

theorem receiver_bit_loop (encoded walsh_codes : List Int) (shift idx : Nat) (data0 : List Int)
    (hdata : data0.length = CODE_LENGTH)
    (hidx : idx + CODE_LENGTH * CODE_LENGTH ≤ encoded.length)
    (hrow : shift + CODE_LENGTH ≤ walsh_codes.length) :
    ∃ st, for_loop (receiver_bit encoded walsh_codes shift) CODE_LENGTH (data0, idx) = .ok st ∧
      st.2 = idx + CODE_LENGTH * CODE_LENGTH ∧ st.1.length = CODE_LENGTH ∧
      ∀ j, j < CODE_LENGTH →
        st.1[j]? = some (chip_sum_int encoded walsh_codes shift (idx + CODE_LENGTH * j)) := by
  have key := for_loop_inv (receiver_bit encoded walsh_codes shift)
    (fun j st => st.2 = idx + CODE_LENGTH * j ∧ st.1.length = CODE_LENGTH ∧
      ∀ q, q < j → st.1[q]? = some (chip_sum_int encoded walsh_codes shift (idx + CODE_LENGTH * q)))
    CODE_LENGTH (data0, idx) ⟨rfl, hdata, fun q hq => by omega⟩
    (by
      rintro j st hj ⟨h2, hl, hv⟩
      have hC : CODE_LENGTH = 8 := rfl
      rw [hC] at hj hidx hrow hl h2
      have hchip := receiver_chip_loop encoded walsh_codes shift st.2
        (by rw [hC, h2]; omega) (by rw [hC]; omega)
      refine ⟨(st.1.set j (chip_sum_int encoded walsh_codes shift st.2), st.2 + CODE_LENGTH),
        ?_, ?_, ?_, ?_⟩
      · simp only [receiver_bit, hchip, Outcome.bind_ok,
          write_of_lt _ (by omega : j < st.1.length)]
      · show st.2 + CODE_LENGTH = idx + CODE_LENGTH * (j + 1)
        rw [hC, h2]
        omega
      · simpa using hl
      · intro q hq
        show (st.1.set j _)[q]? = _
        rw [List.getElem?_set]
        by_cases hqj : j = q
        · subst hqj
          rw [if_pos rfl, if_pos (by omega), h2]
          rfl
        · rw [if_neg hqj]
          exact hv q (by omega))
  exact key

/-- The assembling loop of `cdma_receiver_get` sets bit `7 - j` of the character
exactly when `data[j]` is positive. -/
theorem receiver_assemble_loop (data : List Int) (hdata : data.length = CODE_LENGTH) :
    ∃ ch, for_loop (receiver_assemble data) CODE_LENGTH 0 = .ok ch ∧
      ∀ b, ch.testBit b = true ↔ (b < 8 ∧ 0 < data.getD (7 - b) 0) := by
  have hC : CODE_LENGTH = 8 := rfl
  have key := for_loop_inv (receiver_assemble data)
    (fun j ch => ∀ b, ch.testBit b = true ↔ (b < 8 ∧ 7 - b < j ∧ 0 < data.getD (7 - b) 0))
    CODE_LENGTH 0 (fun b => by simp)
    (by
      intro j ch hj hI
      rw [hC] at hj
      refine ⟨if data.getD j 0 > 0 then ch ||| (1 <<< (CODE_LENGTH - 1 - j)) else ch, ?_, ?_⟩
      · simp only [receiver_assemble, read_getD (0 : Int) (by omega : j < data.length),
          Outcome.bind_ok]
      · intro b
        have hs : CODE_LENGTH - 1 - j = 7 - j := rfl
        rw [hs, Nat.one_shiftLeft]
        by_cases hd : data.getD j 0 > 0
        · rw [if_pos hd, Nat.testBit_or, Bool.or_eq_true, hI b, Nat.testBit_two_pow,
            decide_eq_true_eq]
          constructor
          · rintro (⟨h1, h2, h3⟩ | h)
            · exact ⟨h1, by omega, h3⟩
            · have e : 7 - b = j := by omega
              exact ⟨by omega, by omega, by rw [e]; exact hd⟩
          · rintro ⟨h1, h2, h3⟩
            by_cases e : 7 - j = b
            · exact Or.inr e
            · exact Or.inl ⟨h1, by omega, h3⟩
        · rw [if_neg hd, hI b]
          constructor
          · rintro ⟨h1, h2, h3⟩
            exact ⟨h1, by omega, h3⟩
          · rintro ⟨h1, h2, h3⟩
            have e : 7 - b ≠ j := by
              intro e
              rw [e] at h3
              exact hd h3
            exact ⟨h1, by omega, h3⟩)
  obtain ⟨ch, hch, hI⟩ := key
  refine ⟨ch, hch, fun b => ?_⟩
  rw [hI b, hC]
  constructor
  · rintro ⟨h1, _, h3⟩
    exact ⟨h1, h3⟩
  · rintro ⟨h1, h3⟩
    exact ⟨h1, by omega, h3⟩

/-- What `cdma_receiver_get` does on every code set: it reads `CODE_LENGTH` chips
per bit and `CODE_LENGTH` bits per character, and sets bit `b` of character `i`
exactly when the `int` chip sum number `7 - b` of that character is positive. -/
theorem receiver_get_spec (r : cdma_receiver) (e : cdma_encoded_message) (station : Nat)
    (hn : 0 < r.base_station.walsh_codes_size)
    (hidx : e.size / (CODE_LENGTH * r.base_station.walsh_codes_size) * 64 ≤ e.encoded.length)
    (hrow : size_mul r.base_station.walsh_codes_size station + 8 ≤
      r.base_station.walsh_codes.length) :
    ∃ buf, cdma_receiver_get r e station = .ok buf ∧
      buf.length = e.size / (CODE_LENGTH * r.base_station.walsh_codes_size) + 1 ∧
      buf[e.size / (CODE_LENGTH * r.base_station.walsh_codes_size)]? = some 0 ∧
      ∀ i, i < e.size / (CODE_LENGTH * r.base_station.walsh_codes_size) →
        ∃ ch, buf[i]? = some ch ∧
          ∀ b, ch.testBit b = true ↔
            (b < 8 ∧ 0 < chip_sum_int e.encoded r.base_station.walsh_codes
              (size_mul r.base_station.walsh_codes_size station) (64 * i + 8 * (7 - b))) := by
  generalize hms : e.size / (CODE_LENGTH * r.base_station.walsh_codes_size) = ms at *
  generalize hsh : size_mul r.base_station.walsh_codes_size station = shift at *
  have hC : CODE_LENGTH = 8 := rfl
  have key := for_loop_inv
    (receiver_char e.encoded r.base_station.walsh_codes shift)
    (fun i st => st.2 = 64 * i ∧ st.1.length = ms + 1 ∧
      (∀ p, i ≤ p → st.1[p]? = (List.replicate (ms + 1) (0 : Nat))[p]?) ∧
      ∀ q, q < i → ∃ ch, st.1[q]? = some ch ∧
        ∀ b, ch.testBit b = true ↔
          (b < 8 ∧ 0 < chip_sum_int e.encoded r.base_station.walsh_codes shift
            (64 * q + 8 * (7 - b))))
    ms (List.replicate (ms + 1) 0, 0)
    ⟨rfl, by simp, fun p _ => rfl, fun q hq => by omega⟩
    (by
      rintro i st hi ⟨h2, hl, hrest, hv⟩
      obtain ⟨rb, hrb, hrb2, hrbl, hrbv⟩ := receiver_bit_loop e.encoded
        r.base_station.walsh_codes shift st.2 (List.replicate CODE_LENGTH 0) (by simp)
        (by rw [hC, h2]; omega) (by rw [hC]; omega)
      obtain ⟨ch, hch, hbits⟩ := receiver_assemble_loop rb.1 hrbl
      refine ⟨(st.1.set i ch, rb.2), ?_, ?_, ?_, ?_, ?_⟩
      · simp only [receiver_char, hrb, Outcome.bind_ok, hch,
          write_of_lt _ (by omega : i < st.1.length)]
      · show rb.2 = 64 * (i + 1)
        rw [hrb2, hC, h2]
        omega
      · simpa using hl
      · intro p hp
        show (st.1.set i ch)[p]? = _
        rw [List.getElem?_set, if_neg (by omega)]
        exact hrest p (by omega)
      · intro q hq
        show ∃ c, (st.1.set i ch)[q]? = some c ∧ _
        rw [List.getElem?_set]
        by_cases hqi : i = q
        · subst hqi
          refine ⟨ch, by rw [if_pos rfl, if_pos (by omega)], ?_⟩
          intro b
          rw [hbits b]
          constructor
          · rintro ⟨h1, h3⟩
            have hg := getD_of_getElem? (0 : Int) (hrbv (7 - b) (by rw [hC]; omega))
            rw [hg, h2, hC] at h3
            exact ⟨h1, h3⟩
          · rintro ⟨h1, h3⟩
            have hg := getD_of_getElem? (0 : Int) (hrbv (7 - b) (by rw [hC]; omega))
            rw [hg, h2, hC]
            exact ⟨h1, h3⟩
        · rw [if_neg hqi]
          exact hv q (by omega))
  obtain ⟨st, hst, _, hl, hrest, hv⟩ := key
  refine ⟨st.1, ?_, hl, ?_, hv⟩
  · have hne : ¬ (CODE_LENGTH * r.base_station.walsh_codes_size = 0) := by
      rw [hC]
      omega
    simp only [cdma_receiver_get, hne, if_false, hms, hsh, hst, Outcome.bind_ok]
  · rw [hrest ms (le_refl _)]
    simp

/-- When every station below `count` decodes, `cdma_receiver_decode_n` returns the
decoded buffers in station order, followed by the `NULL` pointer. -/
theorem decode_n_spec (r : cdma_receiver) (e : cdma_encoded_message) (count : Nat)
    (f : Nat → List Nat) (hget : ∀ s, s < count → cdma_receiver_get r e s = .ok (f s)) :
    cdma_receiver_decode_n r e count = .ok ((List.range count).map f ++ [[]]) := by
  obtain ⟨out, hout, hl, hv⟩ := for_loop_inv (decode_n_station r e)
    (fun s out => out.length = count + 1 ∧
      ∀ p, out[p]? = if p < s then some (f p) else (List.replicate (count + 1) [])[p]?)
    count (List.replicate (count + 1) [])
    ⟨by simp, fun p => by simp⟩
    (by
      rintro s out hs ⟨hl, hv⟩
      refine ⟨out.set s (f s), ?_, by simpa using hl, ?_⟩
      · simp only [decode_n_station, hget s hs, Outcome.bind_ok,
          write_of_lt _ (by omega : s < out.length)]
      · intro p
        rw [List.getElem?_set, hv p]
        by_cases hp : s = p
        · subst hp
          rw [if_pos rfl, if_pos (by omega), if_pos (by omega)]
        · rw [if_neg hp]
          by_cases hp2 : p < s
          · rw [if_pos hp2, if_pos (by omega)]
          · rw [if_neg hp2, if_neg (by omega)])
  rw [cdma_receiver_decode_n, hout]
  congr 1
  apply List.ext_getElem?
  intro p
  rw [hv p]
  by_cases hp : p < count
  · rw [if_pos hp, List.getElem?_append_left (by simpa using hp), List.getElem?_map,
      List.getElem?_range hp]
    rfl
  · rw [if_neg hp]
    by_cases hp2 : p = count
    · subst hp2
      rw [List.getElem?_append_right (by simp)]
      simp
    · rw [List.getElem?_eq_none (by simp; omega), List.getElem?_eq_none (by simp; omega)]

/-! ## Despreading a superposition -/

/-- Correlating a superposition of Sylvester rows with row `s` isolates the
coefficient of row `s`, scaled by the order. -/
theorem hadamard_isolates (m k s : Nat) (x : Nat → Int) (hk : k ≤ 2 ^ m) (hs : s < k) :
    ∑ c in Finset.range (2 ^ m),
        (∑ i in Finset.range k, x i * hadamard m i c) * hadamard m s c =
      2 ^ m * x s := by
  have e1 : ∀ c ∈ Finset.range (2 ^ m),
      (∑ i in Finset.range k, x i * hadamard m i c) * hadamard m s c =
        ∑ i in Finset.range k, x i * (hadamard m i c * hadamard m s c) := by
    intro c _
    rw [Finset.sum_mul]
    exact Finset.sum_congr rfl fun i _ => by ring
  rw [Finset.sum_congr rfl e1, Finset.sum_comm]
  have e2 : ∀ i ∈ Finset.range k,
      ∑ c in Finset.range (2 ^ m), x i * (hadamard m i c * hadamard m s c) =
        if i = s then 2 ^ m * x s else 0 := by
    intro i hi
    rw [← Finset.mul_sum, hadamard_dot m i s (by have := Finset.mem_range.mp hi; omega)
      (by omega)]
    by_cases h : i = s
    · rw [if_pos h, if_pos h, h]
      ring
    · rw [if_neg h, if_neg h, mul_zero]
  rw [Finset.sum_congr rfl e2, Finset.sum_ite_eq' (Finset.range k) s, if_pos (Finset.mem_range.mpr hs)]

theorem testBit_lt_of_lt_256 (c b : Nat) (hc : c < 256) (hb : c.testBit b = true) : b < 8 := by
  by_contra h
  have h8 : 2 ^ 8 ≤ 2 ^ b := Nat.pow_le_pow_right (by decide) (by omega)
  have := Nat.testBit_lt_two_pow (x := c) (i := b) (by omega)
  rw [this] at hb
  cases hb

theorem getD_bit_signs (message : List Nat) (i j : Nat) (hi : i < message.length) (hj : j < 8) :
    (bit_signs message).getD (8 * i + j) 0 = bit_sign (message.getD i 0) j := by
  apply getD_of_getElem?
  rw [getElem?_bit_signs, if_pos (by omega)]
  have h1 : (8 * i + j) / 8 = i := by omega
  have h2 : (8 * i + j) % 8 = j := by omega
  rw [h1, h2]

theorem size_mul_of_lt (a b : Nat) (h : a * b < 2 ^ 64) : size_mul a b = a * b :=
  Nat.mod_eq_of_lt h

theorem wrap_int_of_fits (x : Int) (h1 : -2 ^ 31 ≤ x) (h2 : x < 2 ^ 31) : wrap_int x = x := by
  unfold wrap_int
  omega

/-- As long as no product and no partial sum leaves the range of `int`, the `int`
chip sum is the mathematical sum. -/
theorem chip_sum_upto_eq_sum (enc W : List Int) (shift idx : Nat) :
    ∀ K, (∀ k, k < K →
      (-2 ^ 31 ≤ enc.getD (idx + k) 0 * W.getD (shift + k) 0 ∧
        enc.getD (idx + k) 0 * W.getD (shift + k) 0 < 2 ^ 31) ∧
      (-2 ^ 31 ≤ ∑ c in Finset.range (k + 1), enc.getD (idx + c) 0 * W.getD (shift + c) 0 ∧
        ∑ c in Finset.range (k + 1), enc.getD (idx + c) 0 * W.getD (shift + c) 0 < 2 ^ 31)) →
      chip_sum_upto enc W shift idx K =
        ∑ c in Finset.range K, enc.getD (idx + c) 0 * W.getD (shift + c) 0
  | 0, _ => by simp [chip_sum_upto]
  | K + 1, h => by
    have ih := chip_sum_upto_eq_sum enc W shift idx K (fun k hk => h k (by omega))
    obtain ⟨⟨hp1, hp2⟩, hs1, hs2⟩ := h K (by omega)
    rw [Finset.sum_range_succ] at hs1 hs2
    rw [chip_sum_upto, ih, wrap_int_of_fits _ hp1 hp2, wrap_int_of_fits _ hs1 hs2,
      Finset.sum_range_succ]

theorem chip_sum_int_eq (enc W : List Int) (shift idx : Nat)
    (h : ∀ k, k < 8 →
      (-2 ^ 31 ≤ enc.getD (idx + k) 0 * W.getD (shift + k) 0 ∧
        enc.getD (idx + k) 0 * W.getD (shift + k) 0 < 2 ^ 31) ∧
      (-2 ^ 31 ≤ ∑ c in Finset.range (k + 1), enc.getD (idx + c) 0 * W.getD (shift + c) 0 ∧
        ∑ c in Finset.range (k + 1), enc.getD (idx + c) 0 * W.getD (shift + c) 0 < 2 ^ 31)) :
    chip_sum_int enc W shift idx = chip_sum enc W shift idx :=
  chip_sum_upto_eq_sum enc W shift idx 8 h

theorem abs_sum_range_le (f : Nat → Int) (B : Int) :
    ∀ K : Nat, (∀ i, i < K → |f i| ≤ B) → |∑ i in Finset.range K, f i| ≤ K * B
  | 0, _ => by simp
  | K + 1, h => by
    have ih := abs_sum_range_le f B K (fun i hi => h i (by omega))
    have hK := h K (by omega)
    rw [Finset.sum_range_succ]
    have ht := abs_add (∑ i in Finset.range K, f i) (f K)
    push_cast
    linarith

/-- Products bounded by `B` with `8 * B` in the range of `int` do not overflow. -/
theorem chip_sum_int_eq_of_abs_le (enc W : List Int) (shift idx : Nat) (B : Int)
    (hB : 8 * B < 2 ^ 31)
    (h : ∀ k, k < 8 → |enc.getD (idx + k) 0 * W.getD (shift + k) 0| ≤ B) :
    chip_sum_int enc W shift idx = chip_sum enc W shift idx := by
  apply chip_sum_int_eq
  intro k hk
  have hB0 : 0 ≤ B := le_trans (abs_nonneg _) (h 0 (by omega))
  have hp := abs_le.mp (h k hk)
  have hs := abs_le.mp (abs_sum_range_le
    (fun c => enc.getD (idx + c) 0 * W.getD (shift + c) 0) B (k + 1)
    (fun i hi => h i (by omega)))
  have hk8 : ((k + 1 : Nat) : Int) * B ≤ 8 * B :=
    mul_le_mul_of_nonneg_right (by exact_mod_cast (by omega : k + 1 ≤ 8)) hB0
  refine ⟨⟨by linarith [hp.1], by linarith [hp.2]⟩, by linarith [hs.1], by linarith [hs.2]⟩

theorem hadamard_abs : ∀ (k r c : Nat), |hadamard k r c| = 1
  | 0, _, _ => by simp [hadamard_zero]
  | k + 1, r, c => by
    rw [hadamard_succ]
    split_ifs
    · exact hadamard_abs k _ _
    · exact hadamard_abs k _ _
    · exact hadamard_abs k _ _
    · rw [abs_neg]
      exact hadamard_abs k _ _

theorem abs_getD_bit_signs (message : List Nat) (p : Nat) :
    |(bit_signs message).getD p 0| ≤ 1 := by
  rw [List.getD_eq_getElem?_getD, getElem?_bit_signs]
  split_ifs
  · show |bit_sign _ _| ≤ 1
    unfold bit_sign
    split_ifs <;> simp
  · simp

/-- On a code set of size 8, the chips of a superposition of at most eight sign
sequences are small: the `int` chip sum is the mathematical chip sum. -/
theorem chip_sum_int_of_superposition (W enc : List Int) (x : Nat → List Int) (k s j : Nat)
    (hW : ∀ r c, r < 2 ^ 3 → c < 2 ^ 3 → W[r * 2 ^ 3 + c]? = some (hadamard 3 r c))
    (henc : ∀ c, c < 8 → enc[8 * j + c]? =
      some (∑ i in Finset.range k, (x i).getD j 0 * W.getD (8 * i + c) 0))
    (hk : k ≤ 8) (hs : s < 8) (hx : ∀ i, |(x i).getD j 0| ≤ 1) :
    chip_sum_int enc W (8 * s) (8 * j) = chip_sum enc W (8 * s) (8 * j) := by
  have hWD : ∀ r c, r < 8 → c < 8 → W.getD (8 * r + c) 0 = hadamard 3 r c := by
    intro r c hr hc
    apply getD_of_getElem?
    rw [Nat.mul_comm]
    exact hW r c hr hc
  apply chip_sum_int_eq_of_abs_le enc W (8 * s) (8 * j) 8 (by norm_num)
  intro c hc
  rw [getD_of_getElem? 0 (henc c hc), hWD s c hs hc, abs_mul, hadamard_abs, mul_one]
  have hb := abs_sum_range_le (fun i => (x i).getD j 0 * W.getD (8 * i + c) 0) 1 k
    (fun i hi => by
      show |(x i).getD j 0 * W.getD (8 * i + c) 0| ≤ 1
      rw [hWD i c (by omega) hc, abs_mul, hadamard_abs, mul_one]
      exact hx i)
  have hk8 : ((k : Nat) : Int) ≤ 8 := by exact_mod_cast hk
  linarith

/-- On a code set of size 8, a block of the stream sent for `k ≤ 8` registered
sign sequences correlates with the code row of station `s < k` to eight times
the sign that station `s` sent in that block. -/
theorem chip_sum_of_superposition (W enc : List Int) (x : Nat → List Int) (k s j : Nat)
    (hW : ∀ r c, r < 2 ^ 3 → c < 2 ^ 3 → W[r * 2 ^ 3 + c]? = some (hadamard 3 r c))
    (henc : ∀ c, c < 8 → enc[8 * j + c]? =
      some (∑ i in Finset.range k, (x i).getD j 0 * W.getD (8 * i + c) 0))
    (hk : k ≤ 8) (hs : s < k) :
    chip_sum enc W (8 * s) (8 * j) = 8 * (x s).getD j 0 := by
  have hWD : ∀ r c, r < 8 → c < 8 → W.getD (8 * r + c) 0 = hadamard 3 r c := by
    intro r c hr hc
    apply getD_of_getElem?
    rw [Nat.mul_comm]
    exact hW r c hr hc
  have e : ∀ c ∈ Finset.range (2 ^ 3),
      enc.getD (8 * j + c) 0 * W.getD (8 * s + c) 0 =
        (∑ i in Finset.range k, (x i).getD j 0 * hadamard 3 i c) * hadamard 3 s c := by
    intro c hc
    have hc8 : c < 8 := Finset.mem_range.mp hc
    rw [getD_of_getElem? 0 (henc c hc8), hWD s c (by omega) hc8]
    congr 1
    apply Finset.sum_congr rfl
    intro i hi
    rw [hWD i c (by have := Finset.mem_range.mp hi; omega) hc8]
  have h := hadamard_isolates 3 k s (fun i => (x i).getD j 0) hk hs
  rw [← Finset.sum_congr rfl e] at h
  exact h

theorem getElem?_getD_of_lt {α : Type} (a : List α) (i : Nat) (d : α) (h : i < a.length) :
    a[i]? = some (a.getD i d) := by
  rw [List.getD_eq_getElem _ _ h, List.getElem?_eq_getElem h]

theorem getD_mem_of_lt {α : Type} (a : List α) (i : Nat) (d : α) (h : i < a.length) :
    a.getD i d ∈ a := by
  rw [List.getD_eq_getElem _ _ h]
  exact List.getElem_mem _

/-- A byte whose bit `b` is set exactly when eight times the sign of bit `b` of
the character `c` is positive is the character `c`. -/
theorem decoded_char_eq (ch c : Nat) (hc : c < 256) (S : Nat → Int)
    (hbits : ∀ b, ch.testBit b = true ↔ (b < 8 ∧ 0 < S b))
    (hS : ∀ b, b < 8 → S b = 8 * bit_sign c (7 - b)) : ch = c := by
  apply Nat.eq_of_testBit_eq
  intro b
  have hiff : ch.testBit b = true ↔ c.testBit b = true := by
    rw [hbits b]
    constructor
    · rintro ⟨hb8, hpos⟩
      rw [hS b hb8] at hpos
      unfold bit_sign at hpos
      have h7 : 7 - (7 - b) = b := by omega
      rw [h7] at hpos
      by_contra hnb
      rw [if_neg hnb] at hpos
      omega
    · intro htb
      have hb8 := testBit_lt_of_lt_256 c b hc htb
      refine ⟨hb8, ?_⟩
      rw [hS b hb8]
      unfold bit_sign
      have h7 : 7 - (7 - b) = b := by omega
      rw [h7, if_pos htb]
      omega
  cases h1 : ch.testBit b <;> cases h2 : c.testBit b <;> simp_all

/-- Round trip on the code set of size 8: after registering at most eight
messages of one common length and sending, `cdma_receiver_get` returns for every
registered station its message followed by the terminating NUL. -/
theorem get_after_send_8 (messages : List (List Nat)) (L : Nat)
    (hk : messages.length ≤ 8) (hlen : ∀ m ∈ messages, m.length = L)
    (hchar : ∀ m ∈ messages, ∀ c ∈ m, c < 256) :
    ∃ bs t0 t e, cdma_base_station_create 8 = .ok bs ∧
      cdma_transmitter_create bs = .ok t0 ∧ add_stations t0 messages = .ok t ∧
      cdma_transmitter_send t = .ok e ∧
      e.size = (if messages = [] then 0 else L) * 8 * 8 ∧ e.encoded.length = e.size ∧
      ∀ s, s < messages.length →
        cdma_receiver_get { base_station := bs } e s = .ok (messages.getD s [] ++ [0]) := by
  obtain ⟨bs, hbs, hsz, hcells, hW⟩ := cdma_base_station_create_pow 3 (by decide)
  have hsz8 : bs.walsh_codes_size = 8 := hsz
  have hcells8 : bs.walsh_codes.length = 64 := hcells
  obtain ⟨t0, t, ht0, ht, hb, hcs, hp, hcodes⟩ := register_spec bs L messages hlen
    (by rw [hsz8]; exact hk)
  obtain ⟨e, he, hsize, helen, hev⟩ := send_spec t (fun i => bit_signs (messages.getD i []))
    (fun i hi => ⟨hcodes i (hcs ▸ hi), by
      have hne : messages ≠ [] := by
        intro h
        rw [hcs, h] at hi
        simp at hi
      rw [length_bit_signs, hp, if_neg hne, getD_length_of_forall messages L hlen i (hcs ▸ hi)]
      omega⟩)
    (by rw [hb, hsz8, hcells8, hcs]; omega)
  rw [hb, hsz8, hp] at hsize
  rw [hb, hsz8, hcs] at hev
  refine ⟨bs, t0, t, e, hbs, ht0, ht, he, hsize, helen, ?_⟩
  intro s hs
  have hne : messages ≠ [] := by
    intro h
    rw [h] at hs
    simp at hs
  rw [if_neg hne] at hsize
  have hms : e.size / (CODE_LENGTH * 8) = L := by
    rw [hsize]
    show L * 8 * 8 / 64 = L
    omega
  obtain ⟨buf, hbuf, hbl, hbz, hbv⟩ := receiver_get_spec { base_station := bs } e s
    (by show 0 < bs.walsh_codes_size; omega)
    (by show e.size / (CODE_LENGTH * bs.walsh_codes_size) * 64 ≤ e.encoded.length
        rw [hsz8, hms, helen, hsize]; omega)
    (by show size_mul bs.walsh_codes_size s + 8 ≤ bs.walsh_codes.length
        rw [hsz8, size_mul_of_lt 8 s (by omega), hcells8]; omega)
  simp only [hsz8, hms, size_mul_of_lt 8 s (by omega)] at hbl hbz hbv
  have hsum : ∀ p b, p < L → b < 8 →
      chip_sum_int e.encoded bs.walsh_codes (8 * s) (64 * p + 8 * (7 - b)) =
        8 * bit_sign ((messages.getD s []).getD p 0) (7 - b) := by
    intro p b hpL hb8
    have hidx : 64 * p + 8 * (7 - b) = 8 * (8 * p + (7 - b)) := by omega
    have henc : ∀ c, c < 8 → e.encoded[8 * (8 * p + (7 - b)) + c]? =
        some (∑ i in Finset.range messages.length,
          (bit_signs (messages.getD i [])).getD (8 * p + (7 - b)) 0 *
            bs.walsh_codes.getD (8 * i + c) 0) := by
      intro c hc
      have hq := hev (8 * (8 * p + (7 - b)) + c) (by rw [hsize]; omega)
      have h1 : (8 * (8 * p + (7 - b)) + c) / 8 = 8 * p + (7 - b) := by omega
      have h2 : (8 * (8 * p + (7 - b)) + c) % 8 = c := by omega
      rw [h1, h2] at hq
      exact hq
    rw [hidx, chip_sum_int_of_superposition bs.walsh_codes e.encoded
        (fun i => bit_signs (messages.getD i [])) messages.length s (8 * p + (7 - b)) hW
        henc hk (by omega) (fun i => abs_getD_bit_signs _ _),
      chip_sum_of_superposition bs.walsh_codes e.encoded
        (fun i => bit_signs (messages.getD i [])) messages.length s (8 * p + (7 - b)) hW
        henc hk hs]
    show 8 * (bit_signs (messages.getD s [])).getD (8 * p + (7 - b)) 0 = _
    rw [getD_bit_signs _ p (7 - b)
      (by rw [getD_length_of_forall messages L hlen s hs]; exact hpL) (by omega)]
  obtain ⟨msg, hmsgdef⟩ : ∃ msg, msg = messages.getD s [] := ⟨_, rfl⟩
  have hmsg : msg.length = L := by
    rw [hmsgdef]
    exact getD_length_of_forall messages L hlen s hs
  have hmem : msg ∈ messages := by
    rw [hmsgdef]
    exact getD_mem_of_lt messages s [] hs
  rw [← hmsgdef] at hsum ⊢
  rw [hbuf]
  congr 1
  apply List.ext_getElem?
  intro p
  by_cases hpL : p < L
  · obtain ⟨ch, hch, hbits⟩ := hbv p hpL
    have hlt : msg.getD p 0 < 256 :=
      hchar msg hmem _ (getD_mem_of_lt msg p 0 (by omega))
    rw [hch, List.getElem?_append_left (by omega), getElem?_getD_of_lt msg p 0 (by omega)]
    congr 1
    exact decoded_char_eq ch (msg.getD p 0) hlt
      (fun b => chip_sum_int e.encoded bs.walsh_codes (8 * s) (64 * p + 8 * (7 - b)))
      hbits (fun b hb8 => hsum p b hpL hb8)
  · by_cases hpe : p = L
    · rw [hpe, hbz, List.getElem?_append_right (by omega), hmsg, Nat.sub_self]
      rfl
    · rw [List.getElem?_eq_none (by omega),
        List.getElem?_eq_none (by rw [List.length_append, hmsg, List.length_singleton]; omega)]

theorem c_string_terminated (m : List Nat) (h : ∀ c ∈ m, c ≠ 0) : c_string (m ++ [0]) = m := by
  induction m with
  | nil => rfl
  | cons a rest ih =>
    have ha : a ≠ 0 := h a (List.mem_cons_self _ _)
    have hr := ih (fun c hc => h c (List.mem_cons_of_mem _ hc))
    unfold c_string at hr ⊢
    simp only [List.cons_append, List.takeWhile_cons, ha, ne_eq, not_false_eq_true,
      decide_True, if_true, hr]

theorem map_range_getD {α β : Type} (l : List α) (d : α) (g : α → β) :
    (List.range l.length).map (fun i => g (l.getD i d)) = l.map g := by
  apply List.ext_getElem?
  intro p
  by_cases hp : p < l.length
  · rw [List.getElem?_map, List.getElem?_range hp, List.getElem?_map,
      getElem?_getD_of_lt l p d hp]
    rfl
  · rw [List.getElem?_eq_none (by simpa using hp), List.getElem?_eq_none (by simpa using hp)]

/-- Round trip on the code set of size 8 (claim C2): for at most eight messages of
one common length made of non-NUL bytes, `cdma_base_station_create 8`, the
registrations in order and `cdma_transmitter_send` all return, the stream has
`L * 64` chips, and `cdma_receiver_decode_n` with the number of messages returns
the array of the messages, each followed by its NUL, closed by `NULL`; read as
C strings the buffers are the registered messages, in registration order. -/
theorem round_trip_size_8 (messages : List (List Nat)) (L : Nat)
    (hk : messages.length ≤ 8) (hlen : ∀ m ∈ messages, m.length = L)
    (hchar : ∀ m ∈ messages, ∀ c ∈ m, c ≠ 0 ∧ c < 256) :
    (∃ bs t0 r t e, cdma_base_station_create 8 = .ok bs ∧
      cdma_transmitter_create bs = .ok t0 ∧ cdma_receiver_create bs = .ok r ∧
      add_stations t0 messages = .ok t ∧ cdma_transmitter_send t = .ok e ∧
      e.encoded.length = (if messages = [] then 0 else L) * 8 * 8 ∧
      cdma_receiver_decode_n r e messages.length =
        .ok (messages.map (fun m => m ++ [0]) ++ [[]])) ∧
    run_driver 8 messages = .ok (messages.map (fun m => m ++ [0]) ++ [[]]) ∧
    ∀ i, i < messages.length →
      c_string ((messages.map (fun m => m ++ [0]) ++ [[]]).getD i []) = messages.getD i [] := by
  obtain ⟨bs, t0, t, e, hbs, ht0, ht, he, hsize, hel, hget⟩ := get_after_send_8 messages L hk hlen
    (fun m hm c hc => (hchar m hm c hc).2)
  have hdec := decode_n_spec { base_station := bs } e messages.length
    (fun s => messages.getD s [] ++ [0]) hget
  rw [map_range_getD messages [] (fun m => m ++ [0])] at hdec
  refine ⟨⟨bs, t0, { base_station := bs }, t, e, hbs, ht0, rfl, ht, he, hsize ▸ hel, hdec⟩, ?_, ?_⟩
  · simp only [run_driver, hbs, Outcome.bind_ok, ht0, cdma_receiver_create, ht, he, hdec]
  · intro i hi
    have h1 : (messages.map (fun m => m ++ [0]) ++ [[]]).getD i [] = messages.getD i [] ++ [0] := by
      apply getD_of_getElem?
      rw [List.getElem?_append_left (by simpa using hi), List.getElem?_map,
        getElem?_getD_of_lt messages i [] hi]
      rfl
    rw [h1]
    exact c_string_terminated _ fun c hc =>
      (hchar _ (getD_mem_of_lt messages i [] hi) c hc).1

theorem round_trip_size_8_witness :
    (∃ bs t0 r t e, cdma_base_station_create 8 = .ok bs ∧
      cdma_transmitter_create bs = .ok t0 ∧ cdma_receiver_create bs = .ok r ∧
      add_stations t0 [[97, 98], [99, 100]] = .ok t ∧ cdma_transmitter_send t = .ok e ∧
      e.encoded.length = (if [[97, 98], [99, 100]] = [] then 0 else 2) * 8 * 8 ∧
      cdma_receiver_decode_n r e [[97, 98], [99, 100]].length =
        .ok ([[97, 98], [99, 100]].map (fun m => m ++ [0]) ++ [[]])) ∧
    run_driver 8 [[97, 98], [99, 100]] =
      .ok ([[97, 98], [99, 100]].map (fun m => m ++ [0]) ++ [[]]) ∧
    ∀ i, i < [[97, 98], [99, 100]].length →
      c_string (([[97, 98], [99, 100]].map (fun m => m ++ [0]) ++ [[]]).getD i []) =
        [[97, 98], [99, 100]].getD i [] :=
  round_trip_size_8 [[97, 98], [99, 100]] 2 (by decide) (by decide) (by decide)

set_option maxRecDepth 1000000 in
/-- Round trip for every code-set size (claim C1) fails on the code for sizes other
than 8, because `cdma_receiver_get` correlates `CODE_LENGTH = 8` chips per bit
instead of `n`. For `n = 16` and the single message `"a"` (byte 97) the driver
pipeline returns the string `"<"` (byte 60); for `n = 4` the receiver reads past
the end of the 32-chip stream. -/
theorem round_trip_fails_off_size_8 :
    run_driver 16 [[97]] = .ok [[60, 0], []] ∧
    c_string [60, 0] ≠ [97] ∧
    run_driver 4 [[97]] = .undefined := by
  decide

set_option maxRecDepth 1000000 in
/-- Agreement of `cdma_receiver_get` with the reference despreader (claim C4) fails
for sizes other than 8. On the code set of size 16, for station 0 and the
128-chip stream made of sixteen `+1` followed by `-1` everywhere, the reference
sum of block `(0, 1)` is `-16`, so bit 6 of the character must be clear, while
`cdma_receiver_get` returns the byte 192, whose bit 6 is set: it takes the chips
8 to 15 of block `(0, 0)` for the second bit. -/
theorem receiver_get_differs_from_despreader :
    ((cdma_base_station_create 16).bind fun b =>
      cdma_receiver_get { base_station := b }
        { encoded := List.replicate 16 1 ++ List.replicate 112 (-1), size := 128 } 0) =
      .ok [192, 0] ∧
    Nat.testBit 192 (7 - 1) = true ∧
    ((cdma_base_station_create 16).bind fun b =>
      .ok (reference_despread_sum b (List.replicate 16 1 ++ List.replicate 112 (-1)) 0 0 1)) =
      .ok (-16) := by
  decide

/-- Atomicity of a rejected registration (claim C11): whenever
`cdma_transmitter_add_station` returns `CDMA_BAD_MESSAGE_SIZE`, the transmitter
after the call is the transmitter before the call: same station count, same
stored sign sequences, same recorded length. -/
theorem rejected_registration_is_atomic (t : cdma_transmitter) (message : List Nat)
    (r : cdma_transmitter)
    (h : cdma_transmitter_add_station t message = .ok (.CDMA_BAD_MESSAGE_SIZE, r)) :
    r = t ∧ r.codes_size = t.codes_size ∧ r.codes = t.codes ∧
      r.prev_message_size = t.prev_message_size := by
  have hrt : r = t := by
    by_cases hsize : t.prev_message_size = 0 ∨ t.prev_message_size = message.length
    · by_cases hslot : t.codes_size < t.codes.length
      · rw [add_station_ok t message hsize hslot] at h
        injection h with h
        injection h with h _
        cases h
      · rw [add_station_full t message hsize hslot] at h
        cases h
    · rw [add_station_bad t message (fun h0 => hsize (Or.inl h0))
        (fun h1 => hsize (Or.inr h1))] at h
      injection h with h
      injection h with _ h
      exact h.symm
  subst hrt
  exact ⟨rfl, rfl, rfl, rfl⟩

theorem rejected_registration_is_atomic_witness :
    ∃ t r : cdma_transmitter, t.codes_size = 1 ∧ t.prev_message_size = 2 ∧
      cdma_transmitter_add_station t [99] = .ok (.CDMA_BAD_MESSAGE_SIZE, r) ∧
      (r = t ∧ r.codes_size = t.codes_size ∧ r.codes = t.codes ∧
        r.prev_message_size = t.prev_message_size) :=
  ⟨{ base_station := { walsh_codes := [1, 1, 1, -1], walsh_codes_size := 2 }
     codes := [bit_signs [97, 98], []], codes_size := 1, prev_message_size := 2 },
   { base_station := { walsh_codes := [1, 1, 1, -1], walsh_codes_size := 2 }
     codes := [bit_signs [97, 98], []], codes_size := 1, prev_message_size := 2 },
   rfl, rfl, by decide, rejected_registration_is_atomic _ [99] _ (by decide)⟩

theorem for_loop_undefined_first {σ : Type} (body : Nat → σ → Outcome σ) (s0 : σ)
    (h : body 0 s0 = .undefined) : ∀ n, 0 < n → for_loop body n s0 = .undefined
  | 0, hn => absurd hn (Nat.lt_irrefl 0)
  | 1, _ => by rw [for_loop_succ, for_loop_zero, Outcome.bind_ok, h]
  | n + 2, _ => by
    rw [for_loop_succ, for_loop_undefined_first body s0 h (n + 1) (Nat.succ_pos n),
      Outcome.bind_undefined]

theorem read_ok_or_undefined {α : Type} (a : List α) (i : Nat) :
    read a i = .undefined ∨ ∃ v, read a i = .ok v := by
  unfold read
  cases a[i]? with
  | none => exact Or.inl rfl
  | some v => exact Or.inr ⟨v, rfl⟩

/-- The first character of `cdma_receiver_get` reads the matrix cell at
`walsh_code_shift`; when there is no such cell the call is undefined. -/
theorem receiver_char_outside (encoded walsh_codes : List Int) (shift : Nat) (st : List Nat × Nat)
    (h : walsh_codes.length ≤ shift) :
    receiver_char encoded walsh_codes shift 0 st = .undefined := by
  have hchip : ∀ s : Int × Nat, receiver_chip encoded walsh_codes shift 0 s = .undefined := by
    intro s
    unfold receiver_chip
    rcases read_ok_or_undefined encoded s.2 with h1 | ⟨a, h1⟩
    · rw [h1, Outcome.bind_undefined]
    · rw [h1, Outcome.bind_ok, read_none (by omega), Outcome.bind_undefined]
  have hbit : ∀ s : List Int × Nat, receiver_bit encoded walsh_codes shift 0 s = .undefined := by
    intro s
    unfold receiver_bit
    rw [for_loop_undefined_first _ _ (hchip _) CODE_LENGTH (by decide), Outcome.bind_undefined]
  unfold receiver_char
  rw [for_loop_undefined_first _ _ (hbit _) CODE_LENGTH (by decide), Outcome.bind_undefined]

theorem bind_ne_error {α β : Type} (x : Outcome α) (f : α → Outcome β) (c : cdma_errno)
    (hx : x ≠ .error c) (hf : ∀ a, f a ≠ .error c) : x.bind f ≠ .error c := by
  cases x with
  | ok a => exact hf a
  | error e => exact fun h => hx (by simpa [Outcome.bind] using h)
  | undefined => exact fun h => Outcome.noConfusion h

theorem for_loop_ne_error {σ : Type} (body : Nat → σ → Outcome σ) (c : cdma_errno)
    (h : ∀ i s, body i s ≠ .error c) : ∀ n s, for_loop body n s ≠ .error c
  | 0, _ => fun h0 => Outcome.noConfusion h0
  | n + 1, s => bind_ne_error _ _ c (for_loop_ne_error body c h n s) (h n)

theorem read_ne_error {α : Type} (a : List α) (i : Nat) (c : cdma_errno) :
    read a i ≠ .error c := by
  rcases read_ok_or_undefined a i with h | ⟨v, h⟩ <;> rw [h] <;> exact fun h0 => Outcome.noConfusion h0

theorem write_ne_error {α : Type} (a : List α) (i : Nat) (v : α) (c : cdma_errno) :
    write a i v ≠ .error c := by
  unfold write
  split_ifs <;> exact fun h0 => Outcome.noConfusion h0

/-- The receiver has no exit with an error code: whatever the station index,
`cdma_receiver_get` does not report an error. -/
theorem receiver_get_ne_error (r : cdma_receiver) (e : cdma_encoded_message) (station : Nat)
    (c : cdma_errno) : cdma_receiver_get r e station ≠ .error c := by
  have hok : ∀ {α : Type} (a : α), (Outcome.ok a : Outcome α) ≠ .error c :=
    fun _ h0 => Outcome.noConfusion h0
  have hchip : ∀ sh k s, receiver_chip e.encoded r.base_station.walsh_codes sh k s ≠ .error c :=
    fun sh k s => bind_ne_error _ _ c (read_ne_error _ _ c)
      (fun _ => bind_ne_error _ _ c (read_ne_error _ _ c) (fun _ => hok _))
  have hbit : ∀ sh j s, receiver_bit e.encoded r.base_station.walsh_codes sh j s ≠ .error c :=
    fun sh j s => bind_ne_error _ _ c (for_loop_ne_error _ c (hchip sh) _ _)
      (fun _ => bind_ne_error _ _ c (write_ne_error _ _ _ c) (fun _ => hok _))
  have hasm : ∀ d j s, receiver_assemble d j s ≠ .error c :=
    fun d j s => bind_ne_error _ _ c (read_ne_error _ _ c) (fun _ => hok _)
  have hchar : ∀ sh i s, receiver_char e.encoded r.base_station.walsh_codes sh i s ≠ .error c :=
    fun sh i s => bind_ne_error _ _ c (for_loop_ne_error _ c (hbit sh) _ _)
      (fun _ => bind_ne_error _ _ c (for_loop_ne_error _ c (hasm _) _ _)
        (fun _ => bind_ne_error _ _ c (write_ne_error _ _ _ c) (fun _ => hok _)))
  unfold cdma_receiver_get
  simp only []
  split_ifs
  · exact fun h0 => Outcome.noConfusion h0
  · exact bind_ne_error _ _ c (for_loop_ne_error _ c (hchar _) _ _) (fun _ => hok _)

/-- Out-of-range station index (claim C12, as amended): `cdma_receiver_get` has no
range check on the station. For a code set of size `n ≥ 1` with `n * n` cells and
a station index `≥ n`, the call never reports an error code, so in particular
not `CDMA_INVALID_ARGUMENT`: it returns the empty string when the stream holds
less than one character, and otherwise, when the row offset `n * station` fits
a `size_t` (it is below `2 ^ 64`), it reads a code row outside the matrix, which
is undefined. (A row offset that wraps modulo `2 ^ 64` can land inside the
matrix again, and the call then decodes with that row.) -/
theorem get_without_station_check (r : cdma_receiver) (e : cdma_encoded_message)
    (station : Nat) (hn : 0 < r.base_station.walsh_codes_size)
    (hcells : r.base_station.walsh_codes.length =
      r.base_station.walsh_codes_size * r.base_station.walsh_codes_size)
    (hs : r.base_station.walsh_codes_size ≤ station) :
    (∀ c, cdma_receiver_get r e station ≠ .error c) ∧
    (e.size / (CODE_LENGTH * r.base_station.walsh_codes_size) = 0 →
      cdma_receiver_get r e station = .ok [0]) ∧
    (0 < e.size / (CODE_LENGTH * r.base_station.walsh_codes_size) →
      r.base_station.walsh_codes_size * station < 2 ^ 64 →
      cdma_receiver_get r e station = .undefined) := by
  have hne : ¬ (CODE_LENGTH * r.base_station.walsh_codes_size = 0) := by
    have hC : CODE_LENGTH = 8 := rfl
    rw [hC]
    omega
  refine ⟨receiver_get_ne_error r e station, ?_, ?_⟩
  · intro hms
    simp only [cdma_receiver_get, hne, if_false, hms, for_loop_zero, Outcome.bind_ok]
    rfl
  · intro hms hfit
    have hout : r.base_station.walsh_codes.length ≤
        size_mul r.base_station.walsh_codes_size station := by
      rw [hcells, size_mul_of_lt _ _ hfit]
      exact Nat.mul_le_mul_left _ hs
    simp only [cdma_receiver_get, hne, if_false]
    rw [for_loop_undefined_first _ _ (receiver_char_outside _ _ _ _ hout) _ hms,
      Outcome.bind_undefined]

theorem get_without_station_check_witness :
    (∀ c, cdma_receiver_get
        { base_station := { walsh_codes := [1, 1, 1, -1], walsh_codes_size := 2 } }
        { encoded := List.replicate 64 1, size := 64 } 2 ≠ .error c) ∧
    (64 / (CODE_LENGTH * 2) = 0 →
      cdma_receiver_get { base_station := { walsh_codes := [1, 1, 1, -1], walsh_codes_size := 2 } }
        { encoded := List.replicate 64 1, size := 64 } 2 = .ok [0]) ∧
    (0 < 64 / (CODE_LENGTH * 2) → 2 * 2 < 2 ^ 64 →
      cdma_receiver_get { base_station := { walsh_codes := [1, 1, 1, -1], walsh_codes_size := 2 } }
        { encoded := List.replicate 64 1, size := 64 } 2 = .undefined) :=
  get_without_station_check
    { base_station := { walsh_codes := [1, 1, 1, -1], walsh_codes_size := 2 } }
    { encoded := List.replicate 64 1, size := 64 } 2 (by decide) (by decide) (by decide)

set_option maxRecDepth 1000000 in
/-- Out-of-range station index (claim C12) is not rejected: on the code set of
size 8, decoding station 8 from a 64-chip stream reads the matrix cells 64 to 71,
outside its 64 cells, and decoding station 8 from the empty stream returns the
empty string; neither call reports `CDMA_INVALID_ARGUMENT`. For station `2 ^ 61`
the row offset `8 * 2 ^ 61` wraps to `0` in `size_t`, and the call decodes the
stream with code row 0: the 64-chip stream of ones gives the character 255. -/
theorem station_out_of_range_not_rejected :
    ((cdma_base_station_create 8).bind fun b =>
      cdma_receiver_get { base_station := b }
        { encoded := List.replicate 64 1, size := 64 } 8) = .undefined ∧
    ((cdma_base_station_create 8).bind fun b =>
      cdma_receiver_get { base_station := b } { encoded := [], size := 0 } 8) = .ok [0] ∧
    ((cdma_base_station_create 8).bind fun b =>
      cdma_receiver_get { base_station := b } { encoded := [], size := 0 } 8) ≠
        .error .CDMA_INVALID_ARGUMENT ∧
    ((cdma_base_station_create 8).bind fun b =>
      cdma_receiver_get { base_station := b }
        { encoded := List.replicate 64 1, size := 64 } (2 ^ 61)) = .ok [255, 0] := by
  decide

/-- Single-station scenario (claim C14): on the code set of size 2 with only
`"A"` registered, `cdma_transmitter_send` returns a stream of 16 chips, but
`cdma_receiver_get` for station 0 is undefined: it correlates `CODE_LENGTH = 8`
chips per bit, so it reads the cells 4 to 7 of the 4-cell matrix and chips past
the end of the stream. -/
theorem single_station_size_2_undefined :
    ((cdma_base_station_create 2).bind fun b =>
      (cdma_transmitter_create b).bind fun t0 =>
      (add_stations t0 [[65]]).bind fun t =>
      (cdma_transmitter_send t).bind fun e => .ok (e.size, e.encoded.length)) = .ok (16, 16) ∧
    ((cdma_base_station_create 2).bind fun b =>
      (cdma_transmitter_create b).bind fun t0 =>
      (add_stations t0 [[65]]).bind fun t =>
      (cdma_transmitter_send t).bind fun e =>
      cdma_receiver_get { base_station := b } e 0) = .undefined ∧
    run_driver 2 [[65]] = .undefined := by
  decide

/-- While slots remain for every call of a sequence, every call returns, the slot
array keeps its length and the station count grows by at most one per call. -/
theorem add_station_calls_spec : ∀ (messages : List (List Nat)) (t : cdma_transmitter),
    t.codes_size + messages.length ≤ t.codes.length →
    ∃ t1, add_station_calls t messages = .ok t1 ∧
      t1.base_station = t.base_station ∧
      t1.codes.length = t.codes.length ∧
      t.codes_size ≤ t1.codes_size ∧
      t1.codes_size ≤ t.codes_size + messages.length
  | [], t, _ => ⟨t, rfl, rfl, rfl, Nat.le_refl _, Nat.le_add_right _ _⟩
  | message :: rest, t, hroom => by
    have hlen : (message :: rest).length = rest.length + 1 := rfl
    rw [hlen] at hroom
    by_cases hsize : t.prev_message_size = 0 ∨ t.prev_message_size = message.length
    · obtain ⟨t1, h1, hb, hl, hlo, hhi⟩ := add_station_calls_spec rest
        { base_station := t.base_station
          codes := t.codes.set t.codes_size (bit_signs message)
          codes_size := t.codes_size + 1
          prev_message_size := message.length }
        (by show t.codes_size + 1 + rest.length ≤ (t.codes.set _ _).length
            rw [List.length_set]
            omega)
      refine ⟨t1, ?_, hb, ?_, ?_, ?_⟩
      · rw [add_station_calls, add_station_ok t message hsize (by omega), Outcome.bind_ok]
        exact h1
      · rw [hl]
        exact List.length_set _ _ _
      · have : t.codes_size + 1 ≤ t1.codes_size := hlo
        omega
      · have : t1.codes_size ≤ t.codes_size + 1 + rest.length := hhi
        rw [hlen]
        omega
    · obtain ⟨t1, h1, hb, hl, hlo, hhi⟩ := add_station_calls_spec rest t (by omega)
      refine ⟨t1, ?_, hb, hl, hlo, ?_⟩
      · rw [add_station_calls, add_station_bad t message (fun h0 => hsize (Or.inl h0))
          (fun h1 => hsize (Or.inr h1)), Outcome.bind_ok]
        exact h1
      · rw [hlen]
        omega

/-- Station count (claim C16, as amended): for a code set of size `n` and every
sequence of at most `n` `cdma_transmitter_add_station` calls on a transmitter
created for it, whatever the messages, every call returns and the number of
registered stations does not exceed the number of calls, hence not `n`. There
is no capacity check: once `n` stations are registered, a registration that
passes the length test is not refused with an error code, it stores the new
sequence at `codes[n]`, past the array of `n` slots, which is undefined. -/
theorem station_count_within_capacity (bs : cdma_base_station) (t0 : cdma_transmitter)
    (messages : List (List Nat)) (h0 : cdma_transmitter_create bs = .ok t0)
    (hk : messages.length ≤ bs.walsh_codes_size) :
    ∃ t, add_station_calls t0 messages = .ok t ∧
      t.codes.length = bs.walsh_codes_size ∧
      t.codes_size ≤ messages.length ∧
      t.codes_size ≤ bs.walsh_codes_size ∧
      (t.codes_size = bs.walsh_codes_size → ∀ message,
        t.prev_message_size = 0 ∨ t.prev_message_size = message.length →
        cdma_transmitter_add_station t message = .undefined) := by
  have ht0 : t0 = { base_station := bs, codes := List.replicate bs.walsh_codes_size []
                    codes_size := 0, prev_message_size := 0 } :=
    Outcome.ok.inj (h0.symm.trans (transmitter_create_eq bs))
  subst ht0
  obtain ⟨t, h1, _, hl, _, hhi⟩ := add_station_calls_spec messages
    { base_station := bs, codes := List.replicate bs.walsh_codes_size []
      codes_size := 0, prev_message_size := 0 } (by simpa using hk)
  have hl1 : t.codes.length = bs.walsh_codes_size := by simpa using hl
  have hc : t.codes_size ≤ messages.length := by simpa using hhi
  refine ⟨t, h1, hl1, hc, by omega, ?_⟩
  intro hfull message hsize
  exact add_station_full t message hsize (by omega)

theorem station_count_within_capacity_witness :
    (∃ t, add_station_calls
        { base_station := { walsh_codes := [1], walsh_codes_size := 1 }
          codes := [[]], codes_size := 0, prev_message_size := 0 } [[97]] = .ok t ∧
      t.codes.length = 1 ∧
      t.codes_size ≤ [[97]].length ∧
      t.codes_size ≤ 1 ∧
      (t.codes_size = 1 → ∀ message,
        t.prev_message_size = 0 ∨ t.prev_message_size = message.length →
        cdma_transmitter_add_station t message = .undefined)) ∧
    add_station_calls
        { base_station := { walsh_codes := [1], walsh_codes_size := 1 }
          codes := [[]], codes_size := 0, prev_message_size := 0 } [[97]] =
      .ok { base_station := { walsh_codes := [1], walsh_codes_size := 1 }
            codes := [bit_signs [97]], codes_size := 1, prev_message_size := 1 } :=
  ⟨station_count_within_capacity { walsh_codes := [1], walsh_codes_size := 1 }
    { base_station := { walsh_codes := [1], walsh_codes_size := 1 }
      codes := [[]], codes_size := 0, prev_message_size := 0 } [[97]] rfl (by decide),
   by decide⟩

/-- Station count (claim C16) is not enforced: on the code set of size 1 the
first registration returns `CDMA_SUCCESS` and fills the only slot, and the
second registration, of a message of the same length, is not refused: it stores
past the slot array. -/
theorem second_station_on_size_1_not_refused :
    ((cdma_base_station_create 1).bind fun b =>
      (cdma_transmitter_create b).bind fun t =>
      (cdma_transmitter_add_station t [97]).bind fun r1 =>
      .ok (r1.1, r1.2.codes_size, r1.2.codes.length, b.walsh_codes_size)) =
        .ok (.CDMA_SUCCESS, 1, 1, 1) ∧
    ((cdma_base_station_create 1).bind fun b =>
      (cdma_transmitter_create b).bind fun t =>
      (cdma_transmitter_add_station t [97]).bind fun r1 =>
      cdma_transmitter_add_station r1.2 [98]) = .undefined := by
  decide

/-- Correlation isolates the station (claim C18): on the code set created for a
power of two `n`, for `k ≤ n` registered sign sequences of length `8 * L`, every
registered station `s` and every bit `j`, the correlation of block `j` of the
stream returned by `cdma_transmitter_send` with code row `s` is `n` times the
sign `b s [j]`; for a sign `+1` or `-1` it is positive exactly when the sign
is `+1`. -/
theorem correlation_isolates_station (t : cdma_transmitter) (bs : cdma_base_station)
    (n k L : Nat) (b : Nat → List Int) (h32 : n < 2 ^ 32) (hp : ∃ m, n = 2 ^ m)
    (hbs : cdma_base_station_create n = .ok bs) (ht : t.base_station = bs)
    (hk : t.codes_size = k) (hkn : k ≤ n) (hL : t.prev_message_size = L)
    (hb : ∀ i, i < k → t.codes[i]? = some (b i) ∧ (b i).length = 8 * L) :
    ∃ e, cdma_transmitter_send t = .ok e ∧
      ∀ s j, s < k → j < 8 * L →
        (∑ c in Finset.range n, e.encoded.getD (j * n + c) 0 * code_chip bs s c =
          n * (b s).getD j 0) ∧
        ((b s).getD j 0 = 1 ∨ (b s).getD j 0 = -1 →
          (0 < ∑ c in Finset.range n, e.encoded.getD (j * n + c) 0 * code_chip bs s c ↔
            (b s).getD j 0 = 1)) := by
  obtain ⟨m, rfl⟩ := hp
  obtain ⟨b1, hb1, hsz, hcells, hW⟩ :=
    cdma_base_station_create_pow m (pow_lt_31_of_create h32 hbs)
  rw [hbs] at hb1
  injection hb1 with hb1
  subst hb1
  obtain ⟨e, he, hsize, _, hev⟩ := send_spec t b
    (fun i hi => ⟨(hb i (hk ▸ hi)).1, by rw [(hb i (hk ▸ hi)).2, hL]; omega⟩)
    (by rw [ht, hsz, hcells, hk]; exact Nat.mul_le_mul_right _ hkn)
  rw [ht, hsz, hL] at hsize
  rw [ht, hsz, hk] at hev
  refine ⟨e, he, ?_⟩
  intro s j hs hj
  have hsum : ∑ c in Finset.range (2 ^ m), e.encoded.getD (j * 2 ^ m + c) 0 * code_chip bs s c =
      (2 ^ m : Nat) * (b s).getD j 0 := by
    have e1 : ∀ c ∈ Finset.range (2 ^ m),
        e.encoded.getD (j * 2 ^ m + c) 0 * code_chip bs s c =
          (∑ i in Finset.range k, (b i).getD j 0 * hadamard m i c) * hadamard m s c := by
      intro c hc
      have hc2 : c < 2 ^ m := Finset.mem_range.mp hc
      have hp : j * 2 ^ m + c < e.size := by
        rw [hsize]
        exact cell_index_lt hc2 hj (le_of_eq (by ring))
      have hd : (j * 2 ^ m + c) / 2 ^ m = j := by
        rw [Nat.mul_comm, Nat.mul_add_div (by omega), Nat.div_eq_of_lt hc2]
        rfl
      have hmod : (j * 2 ^ m + c) % 2 ^ m = c := by
        rw [Nat.mul_comm, Nat.mul_add_mod, Nat.mod_eq_of_lt hc2]
      rw [getD_of_getElem? 0 (hev _ hp), hd, hmod,
        code_chip_create m bs hsz hW s c (by omega) hc2]
      congr 1
      apply Finset.sum_congr rfl
      intro i hi
      have hi2 : i < 2 ^ m := by have := Finset.mem_range.mp hi; omega
      have hg := code_chip_create m bs hsz hW i c hi2 hc2
      unfold code_chip at hg
      rw [hsz, Nat.mul_comm] at hg
      rw [hg]
    rw [Finset.sum_congr rfl e1, hadamard_isolates m k s (fun i => (b i).getD j 0) hkn hs]
    push_cast
    rfl
  refine ⟨hsum, ?_⟩
  intro hpm
  rw [hsum]
  have hpos : (0 : Int) < ((2 ^ m : Nat) : Int) := by positivity
  rcases hpm with h1 | h1
  · rw [h1]
    simp only [mul_one, hpos, true_iff]
  · rw [h1]
    constructor
    · intro h
      nlinarith
    · intro h
      omega

theorem correlation_isolates_station_witness :
    cdma_base_station_create 2 = .ok { walsh_codes := [1, 1, 1, -1], walsh_codes_size := 2 } ∧
    ∃ e, cdma_transmitter_send
        { base_station := { walsh_codes := [1, 1, 1, -1], walsh_codes_size := 2 }
          codes := [bit_signs [65], bit_signs [66]], codes_size := 2, prev_message_size := 1 } =
          .ok e ∧
      ∀ s j, s < 2 → j < 8 * 1 →
        (∑ c in Finset.range 2, e.encoded.getD (j * 2 + c) 0 *
            code_chip { walsh_codes := [1, 1, 1, -1], walsh_codes_size := 2 } s c =
          (2 : Nat) * ([bit_signs [65], bit_signs [66]].getD s []).getD j 0) ∧
        (([bit_signs [65], bit_signs [66]].getD s []).getD j 0 = 1 ∨
            ([bit_signs [65], bit_signs [66]].getD s []).getD j 0 = -1 →
          (0 < ∑ c in Finset.range 2, e.encoded.getD (j * 2 + c) 0 *
              code_chip { walsh_codes := [1, 1, 1, -1], walsh_codes_size := 2 } s c ↔
            ([bit_signs [65], bit_signs [66]].getD s []).getD j 0 = 1)) :=
  ⟨by decide,
    correlation_isolates_station _ { walsh_codes := [1, 1, 1, -1], walsh_codes_size := 2 }
      2 2 1 (fun i => [bit_signs [65], bit_signs [66]].getD i [])
      (by decide) ⟨1, by decide⟩ (by decide) rfl rfl (by decide) rfl (by decide)⟩

/-- On a code set of size 8 the chip sum that `cdma_receiver_get` computes for bit
`t` of character `m` is the reference despreading sum of block `(m, t)`. -/
theorem chip_sum_eq_reference_8 (bs : cdma_base_station) (hsz : bs.walsh_codes_size = 8)
    (encoded : List Int) (s m t : Nat) :
    chip_sum encoded bs.walsh_codes (8 * s) (64 * m + 8 * t) =
      reference_despread_sum bs encoded s m t := by
  unfold chip_sum reference_despread_sum code_chip
  rw [hsz]
  apply Finset.sum_congr rfl
  intro c _
  have h1 : 64 * m + 8 * t + c = (8 * m + t) * 8 + c := by omega
  have h2 : 8 * s + c = s * 8 + c := by omega
  rw [h1, h2]

theorem abs_getD_lt (l : List Int) (B : Int) (hB : 0 < B) (h : ∀ x ∈ l, |x| < B) (i : Nat) :
    |l.getD i 0| < B := by
  by_cases hi : i < l.length
  · exact h _ (getD_mem_of_lt l i 0 hi)
  · rw [List.getD_eq_default _ _ (by omega), abs_zero]
    exact hB

/-- Agreement with the reference despreader at size 8 (claim C19, as amended): on
the code set created for `n = 8`, for every chip stream of `64 * L` chips, each
of absolute value below `2 ^ 28`, and every station `s < 8`,
`cdma_receiver_get` returns `L` characters and the terminating NUL, and bit
`7 - t` of character `m` is set exactly when the sum over `c < 8` of
`stream[(8 * m + t) * 8 + c] * row(s)[c]` is positive. The receiver adds the
eight products in an `int`; chips below `2 ^ 28` keep that sum in its range. -/
theorem get_agrees_with_despreader_without_overflow (e : cdma_encoded_message) (s L : Nat)
    (hs : s < 8) (hsize : e.size = 64 * L) (hlen : e.encoded.length = e.size)
    (hchips : ∀ x ∈ e.encoded, |x| < 2 ^ 28) :
    ∃ bs, cdma_base_station_create 8 = .ok bs ∧ bs.walsh_codes_size = 8 ∧
      ∃ buf, cdma_receiver_get { base_station := bs } e s = .ok buf ∧
        buf.length = L + 1 ∧ buf[L]? = some 0 ∧
        ∀ m t, m < L → t < 8 →
          ∃ ch, buf[m]? = some ch ∧
            (ch.testBit (7 - t) = true ↔ 0 < reference_despread_sum bs e.encoded s m t) := by
  obtain ⟨bs, hbs, hsz, hcells, hW⟩ := cdma_base_station_create_pow 3 (by decide)
  have hsz8 : bs.walsh_codes_size = 8 := hsz
  have hcells8 : bs.walsh_codes.length = 64 := hcells
  have hms : e.size / (CODE_LENGTH * 8) = L := by
    rw [hsize]
    show 64 * L / 64 = L
    omega
  obtain ⟨buf, hbuf, hbl, hbz, hbv⟩ := receiver_get_spec { base_station := bs } e s
    (by show 0 < bs.walsh_codes_size; omega)
    (by show e.size / (CODE_LENGTH * bs.walsh_codes_size) * 64 ≤ e.encoded.length
        rw [hsz8, hms, hlen, hsize]; omega)
    (by show size_mul bs.walsh_codes_size s + 8 ≤ bs.walsh_codes.length
        rw [hsz8, size_mul_of_lt 8 s (by omega), hcells8]; omega)
  simp only [hsz8, hms, size_mul_of_lt 8 s (by omega)] at hbl hbz hbv
  have hint : ∀ idx, chip_sum_int e.encoded bs.walsh_codes (8 * s) idx =
      chip_sum e.encoded bs.walsh_codes (8 * s) idx := by
    intro idx
    apply chip_sum_int_eq_of_abs_le e.encoded bs.walsh_codes (8 * s) idx (2 ^ 28 - 1)
      (by norm_num)
    intro k hk
    have hw : bs.walsh_codes.getD (8 * s + k) 0 = hadamard 3 s k := by
      apply getD_of_getElem?
      rw [Nat.mul_comm]
      exact hW s k hs hk
    rw [hw, abs_mul, hadamard_abs, mul_one]
    have := abs_getD_lt e.encoded (2 ^ 28) (by norm_num) hchips (idx + k)
    omega
  refine ⟨bs, hbs, hsz8, buf, hbuf, hbl, hbz, ?_⟩
  intro m t hm ht
  obtain ⟨ch, hch, hbits⟩ := hbv m hm
  refine ⟨ch, hch, ?_⟩
  have h7 : 7 - (7 - t) = t := by omega
  rw [hbits (7 - t), h7, hint, chip_sum_eq_reference_8 bs hsz8]
  constructor
  · rintro ⟨_, h⟩
    exact h
  · intro h
    exact ⟨by omega, h⟩

theorem get_agrees_with_despreader_without_overflow_witness :
    ∃ bs, cdma_base_station_create 8 = .ok bs ∧ bs.walsh_codes_size = 8 ∧
      ∃ buf, cdma_receiver_get { base_station := bs }
          { encoded := List.replicate 64 1, size := 64 } 1 = .ok buf ∧
        buf.length = 1 + 1 ∧ buf[1]? = some 0 ∧
        ∀ m t, m < 1 → t < 8 →
          ∃ ch, buf[m]? = some ch ∧
            (ch.testBit (7 - t) = true ↔
              0 < reference_despread_sum bs (List.replicate 64 1) 1 m t) :=
  get_agrees_with_despreader_without_overflow
    { encoded := List.replicate 64 1, size := 64 } 1 1
    (by decide) (by decide) (by decide) (by decide)

set_option maxRecDepth 1000000 in
/-- Agreement with the reference despreader at size 8 (claim C19) fails when the
correlation overflows an `int`. On the code set of size 8, for station 0 and the
64-chip stream made of eight chips `2 ^ 28` followed by ones, the reference sum
of block `(0, 0)` is `2 ^ 31`, positive, so bit 7 of the character must be set;
the `int` sum of `cdma_receiver_get` wraps to `-2 ^ 31` and the call returns the
byte 127, whose bit 7 is clear. -/
theorem receiver_get_differs_on_int_overflow :
    ((cdma_base_station_create 8).bind fun b =>
      cdma_receiver_get { base_station := b }
        { encoded := List.replicate 8 (2 ^ 28) ++ List.replicate 56 1, size := 64 } 0) =
      .ok [127, 0] ∧
    Nat.testBit 127 (7 - 0) = false ∧
    ((cdma_base_station_create 8).bind fun b =>
      .ok (reference_despread_sum b (List.replicate 8 (2 ^ 28) ++ List.replicate 56 1) 0 0 0)) =
      .ok (2 ^ 31) ∧
    ((cdma_base_station_create 8).bind fun b =>
      .ok (chip_sum_int (List.replicate 8 (2 ^ 28) ++ List.replicate 56 1) b.walsh_codes
        0 0)) = .ok (-2 ^ 31) := by
  decide

/-- Correlating a superposition of Sylvester rows with a row that is not part of
it gives zero. -/
theorem hadamard_cancels (m k s : Nat) (x : Nat → Int) (hk : k ≤ s) (hs : s < 2 ^ m) :
    ∑ c in Finset.range (2 ^ m),
        (∑ i in Finset.range k, x i * hadamard m i c) * hadamard m s c = 0 := by
  have e1 : ∀ c ∈ Finset.range (2 ^ m),
      (∑ i in Finset.range k, x i * hadamard m i c) * hadamard m s c =
        ∑ i in Finset.range k, x i * (hadamard m i c * hadamard m s c) := by
    intro c _
    rw [Finset.sum_mul]
    exact Finset.sum_congr rfl fun i _ => by ring
  rw [Finset.sum_congr rfl e1, Finset.sum_comm]
  apply Finset.sum_eq_zero
  intro i hi
  have hik : i < k := Finset.mem_range.mp hi
  rw [← Finset.mul_sum, hadamard_dot m i s (by omega) hs, if_neg (by omega), mul_zero]

/-- On a code set of size 8, a block of the stream sent for `k` registered sign
sequences has correlation zero with the code row of a station `s ≥ k`. -/
theorem chip_sum_unregistered (W enc : List Int) (x : Nat → List Int) (k s j : Nat)
    (hW : ∀ r c, r < 2 ^ 3 → c < 2 ^ 3 → W[r * 2 ^ 3 + c]? = some (hadamard 3 r c))
    (henc : ∀ c, c < 8 → enc[8 * j + c]? =
      some (∑ i in Finset.range k, (x i).getD j 0 * W.getD (8 * i + c) 0))
    (hk : k ≤ s) (hs : s < 8) :
    chip_sum enc W (8 * s) (8 * j) = 0 := by
  have hWD : ∀ r c, r < 8 → c < 8 → W.getD (8 * r + c) 0 = hadamard 3 r c := by
    intro r c hr hc
    apply getD_of_getElem?
    rw [Nat.mul_comm]
    exact hW r c hr hc
  have e : ∀ c ∈ Finset.range (2 ^ 3),
      enc.getD (8 * j + c) 0 * W.getD (8 * s + c) 0 =
        (∑ i in Finset.range k, (x i).getD j 0 * hadamard 3 i c) * hadamard 3 s c := by
    intro c hc
    have hc8 : c < 8 := Finset.mem_range.mp hc
    rw [getD_of_getElem? 0 (henc c hc8), hWD s c hs hc8]
    congr 1
    apply Finset.sum_congr rfl
    intro i hi
    rw [hWD i c (by have := Finset.mem_range.mp hi; omega) hc8]
  have h := hadamard_cancels 3 k s (fun i => (x i).getD j 0) hk hs
  rw [← Finset.sum_congr rfl e] at h
  exact h

/-- Decoding an unregistered station (claim C20): on the code set of size 8, after
registering `k` messages of one common length `L` and sending, for every station
`s` with `k ≤ s < 8` every chip sum that `cdma_receiver_get` computes on the
stream is `0` (the mathematical sum and the `int` sum of the receiver alike), so
the call returns NUL bytes only (one per character of the stream and the
terminator) and the returned C string is empty. -/
theorem unregistered_station_decodes_to_nul (messages : List (List Nat)) (L s : Nat)
    (hk : messages.length ≤ s) (hs : s < 8) (hlen : ∀ m ∈ messages, m.length = L) :
    ∃ bs t0 t e, cdma_base_station_create 8 = .ok bs ∧
      cdma_transmitter_create bs = .ok t0 ∧ add_stations t0 messages = .ok t ∧
      cdma_transmitter_send t = .ok e ∧
      e.size = (if messages = [] then 0 else L) * 8 * 8 ∧
      (∀ m j, m < (if messages = [] then 0 else L) → j < 8 →
        chip_sum e.encoded bs.walsh_codes (8 * s) (64 * m + 8 * j) = 0) ∧
      (∀ m j, m < (if messages = [] then 0 else L) → j < 8 →
        chip_sum_int e.encoded bs.walsh_codes (8 * s) (64 * m + 8 * j) = 0) ∧
      cdma_receiver_get { base_station := bs } e s =
        .ok (List.replicate ((if messages = [] then 0 else L) + 1) 0) ∧
      c_string (List.replicate ((if messages = [] then 0 else L) + 1) 0) = [] := by
  obtain ⟨bs, hbs, hsz, hcells, hW⟩ := cdma_base_station_create_pow 3 (by decide)
  have hsz8 : bs.walsh_codes_size = 8 := hsz
  have hcells8 : bs.walsh_codes.length = 64 := hcells
  obtain ⟨t0, t, ht0, ht, hb, hcs, hp, hcodes⟩ := register_spec bs L messages hlen
    (by rw [hsz8]; omega)
  obtain ⟨e, he, hsize, helen, hev⟩ := send_spec t (fun i => bit_signs (messages.getD i []))
    (fun i hi => ⟨hcodes i (hcs ▸ hi), by
      have hne : messages ≠ [] := by
        intro h
        rw [hcs, h] at hi
        simp at hi
      rw [length_bit_signs, hp, if_neg hne, getD_length_of_forall messages L hlen i (hcs ▸ hi)]
      omega⟩)
    (by rw [hb, hsz8, hcells8, hcs]; omega)
  rw [hb, hsz8, hp] at hsize
  rw [hb, hsz8, hcs] at hev
  generalize hL1 : (if messages = [] then 0 else L) = L1 at *
  have hms : e.size / (CODE_LENGTH * 8) = L1 := by
    rw [hsize]
    show L1 * 8 * 8 / 64 = L1
    omega
  have henc : ∀ m j c, m < L1 → j < 8 → c < 8 → e.encoded[8 * (8 * m + j) + c]? =
      some (∑ i in Finset.range messages.length,
        (bit_signs (messages.getD i [])).getD (8 * m + j) 0 *
          bs.walsh_codes.getD (8 * i + c) 0) := by
    intro m j c hm hj hc
    have hq := hev (8 * (8 * m + j) + c) (by rw [hsize]; omega)
    have h1 : (8 * (8 * m + j) + c) / 8 = 8 * m + j := by omega
    have h2 : (8 * (8 * m + j) + c) % 8 = c := by omega
    rw [h1, h2] at hq
    exact hq
  have hsum : ∀ m j, m < L1 → j < 8 →
      chip_sum e.encoded bs.walsh_codes (8 * s) (64 * m + 8 * j) = 0 := by
    intro m j hm hj
    have hidx : 64 * m + 8 * j = 8 * (8 * m + j) := by omega
    rw [hidx]
    exact chip_sum_unregistered bs.walsh_codes e.encoded
      (fun i => bit_signs (messages.getD i [])) messages.length s (8 * m + j) hW
      (fun c hc => henc m j c hm hj hc) hk hs
  have hsumint : ∀ m j, m < L1 → j < 8 →
      chip_sum_int e.encoded bs.walsh_codes (8 * s) (64 * m + 8 * j) = 0 := by
    intro m j hm hj
    have hidx : 64 * m + 8 * j = 8 * (8 * m + j) := by omega
    rw [← hsum m j hm hj, hidx]
    exact chip_sum_int_of_superposition bs.walsh_codes e.encoded
      (fun i => bit_signs (messages.getD i [])) messages.length s (8 * m + j) hW
      (fun c hc => henc m j c hm hj hc) (by omega) hs (fun i => abs_getD_bit_signs _ _)
  obtain ⟨buf, hbuf, hbl, hbz, hbv⟩ := receiver_get_spec { base_station := bs } e s
    (by show 0 < bs.walsh_codes_size; omega)
    (by show e.size / (CODE_LENGTH * bs.walsh_codes_size) * 64 ≤ e.encoded.length
        rw [hsz8, hms, helen, hsize]; omega)
    (by show size_mul bs.walsh_codes_size s + 8 ≤ bs.walsh_codes.length
        rw [hsz8, size_mul_of_lt 8 s (by omega), hcells8]; omega)
  simp only [hsz8, hms, size_mul_of_lt 8 s (by omega)] at hbl hbz hbv
  refine ⟨bs, t0, t, e, hbs, ht0, ht, he, hsize, hsum, hsumint, ?_, ?_⟩
  · rw [hbuf]
    congr 1
    apply List.ext_getElem?
    intro p
    by_cases hpL : p < L1
    · obtain ⟨ch, hch, hbits⟩ := hbv p hpL
      have hch0 : ch = 0 := by
        apply Nat.eq_of_testBit_eq
        intro b
        rw [Nat.zero_testBit]
        cases hb1 : ch.testBit b
        · rfl
        · obtain ⟨hb8, hpos⟩ := (hbits b).mp hb1
          rw [hsumint p (7 - b) hpL (by omega)] at hpos
          exact absurd hpos (lt_irrefl 0)
      rw [hch, hch0, List.getElem?_replicate, if_pos (by omega)]
    · by_cases hpe : p = L1
      · rw [hpe, hbz, List.getElem?_replicate, if_pos (by omega)]
      · rw [List.getElem?_eq_none (by omega), List.getElem?_eq_none (by simp; omega)]
  · simp [c_string, List.replicate_succ]

theorem unregistered_station_decodes_to_nul_witness :
    ∃ bs t0 t e, cdma_base_station_create 8 = .ok bs ∧
      cdma_transmitter_create bs = .ok t0 ∧ add_stations t0 [[97, 98], [99, 100]] = .ok t ∧
      cdma_transmitter_send t = .ok e ∧
      e.size = (if [[97, 98], [99, 100]] = [] then 0 else 2) * 8 * 8 ∧
      (∀ m j, m < (if [[97, 98], [99, 100]] = [] then 0 else 2) → j < 8 →
        chip_sum e.encoded bs.walsh_codes (8 * 5) (64 * m + 8 * j) = 0) ∧
      (∀ m j, m < (if [[97, 98], [99, 100]] = [] then 0 else 2) → j < 8 →
        chip_sum_int e.encoded bs.walsh_codes (8 * 5) (64 * m + 8 * j) = 0) ∧
      cdma_receiver_get { base_station := bs } e 5 =
        .ok (List.replicate ((if [[97, 98], [99, 100]] = [] then 0 else 2) + 1) 0) ∧
      c_string (List.replicate ((if [[97, 98], [99, 100]] = [] then 0 else 2) + 1) 0) = [] :=
  unregistered_station_decodes_to_nul [[97, 98], [99, 100]] 2 5 (by decide) (by decide)
    (by decide)

theorem ones_below_succ (w x : Nat) :
    ones_below (w + 1) x = ones_below w x + if x.testBit w then 1 else 0 := by
  unfold ones_below
  rw [Finset.sum_range_succ]

theorem ones_below_congr (w x y : Nat) (h : ∀ i, i < w → x.testBit i = y.testBit i) :
    ones_below w x = ones_below w y := by
  unfold ones_below
  apply Finset.sum_congr rfl
  intro i hi
  rw [h i (Finset.mem_range.mp hi)]

theorem ones_below_add (N x : Nat) (hN : x < 2 ^ N) :
    ∀ d, ones_below (N + d) x = ones_below N x
  | 0 => rfl
  | d + 1 => by
    have hlt : x < 2 ^ (N + d) :=
      lt_of_lt_of_le hN (Nat.pow_le_pow_right (by decide) (Nat.le_add_right N d))
    rw [← Nat.add_assoc, ones_below_succ, Nat.testBit_lt_two_pow hlt, ones_below_add N x hN d]
    simp

theorem ones_below_eq (N M x : Nat) (hN : x < 2 ^ N) (hM : x < 2 ^ M) :
    ones_below N x = ones_below M x := by
  rcases Nat.le_total N M with h | h
  · obtain ⟨d, rfl⟩ := Nat.exists_eq_add_of_le h
    exact (ones_below_add N x hN d).symm
  · obtain ⟨d, rfl⟩ := Nat.exists_eq_add_of_le h
    exact ones_below_add M x hM d

theorem popcount_eq_ones_below (N x : Nat) (hN : x < 2 ^ N) : popcount x = ones_below N x :=
  ones_below_eq _ _ x (Nat.lt_size_self x) hN

theorem testBit_top (r k : Nat) (h : r < 2 ^ (k + 1)) : r.testBit k = decide (2 ^ k ≤ r) := by
  by_cases hr : 2 ^ k ≤ r
  · have hS : 2 ^ (k + 1) = 2 ^ k + 2 ^ k := by ring
    have e : r = 2 ^ k + (r - 2 ^ k) := by omega
    rw [e, Nat.testBit_two_pow_add_eq, Nat.testBit_lt_two_pow (by omega)]
    simp
  · rw [Nat.testBit_lt_two_pow (by omega)]
    simp [hr]

theorem testBit_low (r k i : Nat) (hi : i < k) (h : 2 ^ k ≤ r) :
    (r - 2 ^ k).testBit i = r.testBit i := by
  have e : r = 2 ^ k + (r - 2 ^ k) := by omega
  conv_rhs => rw [e]
  rw [Nat.testBit_two_pow_add_gt hi]

/-- The quadrant recursion of the Sylvester matrix in closed form: the entry at row
`r`, column `c` is `-1` raised to the number of bit positions set in both. -/
theorem hadamard_eq_pow : ∀ (k r c : Nat), r < 2 ^ k → c < 2 ^ k →
    hadamard k r c = (-1) ^ ones_below k (r &&& c)
  | 0, r, c, _, _ => by simp [hadamard_zero, ones_below]
  | k + 1, r, c, hr, hc => by
    have hS : 2 ^ (k + 1) = 2 ^ k + 2 ^ k := by ring
    rw [ones_below_succ, Nat.testBit_and, testBit_top r k hr, testBit_top c k hc, hadamard_succ]
    by_cases h1 : r < 2 ^ k <;> by_cases h2 : c < 2 ^ k
    · rw [if_pos h1, if_pos h2, hadamard_eq_pow k r c h1 h2]
      simp [Nat.not_le.mpr h1]
    · rw [if_pos h1, if_neg h2, hadamard_eq_pow k r (c - 2 ^ k) h1 (by omega),
        ones_below_congr k (r &&& (c - 2 ^ k)) (r &&& c) (fun i hi => by
          rw [Nat.testBit_and, Nat.testBit_and, testBit_low c k i hi (by omega)])]
      simp [Nat.not_le.mpr h1]
    · rw [if_neg h1, if_pos h2, hadamard_eq_pow k (r - 2 ^ k) c (by omega) h2,
        ones_below_congr k ((r - 2 ^ k) &&& c) (r &&& c) (fun i hi => by
          rw [Nat.testBit_and, Nat.testBit_and, testBit_low r k i hi (by omega)])]
      simp [Nat.not_le.mpr h2]
    · rw [if_neg h1, if_neg h2, hadamard_eq_pow k (r - 2 ^ k) (c - 2 ^ k) (by omega) (by omega),
        ones_below_congr k ((r - 2 ^ k) &&& (c - 2 ^ k)) (r &&& c) (fun i hi => by
          rw [Nat.testBit_and, Nat.testBit_and, testBit_low r k i hi (by omega),
            testBit_low c k i hi (by omega)])]
      simp [Nat.not_lt.mp h1, Nat.not_lt.mp h2, pow_succ]

/-- The function `walsh_codes_init`, called as `cdma_base_station_create` calls it,
overwrites every cell: whatever the allocated cells hold, the result is the
matrix that `cdma_base_station_create` returns. -/
theorem walsh_codes_init_overwrites (m : Nat) (hm : m < 31) (b : cdma_base_station)
    (hb : cdma_base_station_create (2 ^ m) = .ok b) (junk : List Int)
    (hjunk : junk.length = 2 ^ m * 2 ^ m) :
    walsh_codes_init (usub (get_log2 (2 ^ m)) 1)
      { walsh_codes := junk, walsh_codes_size := 2 ^ m } 0 0 (2 ^ m) 1 = .ok b := by
  obtain ⟨b1, hb1, hs1, hl1, hv1⟩ := cdma_base_station_create_pow m hm
  have hbb : b = b1 := Outcome.ok.inj (hb.symm.trans hb1)
  subst hbb
  obtain ⟨b2, hb2, hs2, hl2, hv2⟩ := walsh_codes_init_spec m
    { walsh_codes := junk, walsh_codes_size := 2 ^ m } 0 0 1 (by simp) (by simp [hjunk])
  rw [(create_arith m (by omega)).2, hb2]
  congr 1
  have hlist : b2.walsh_codes = b.walsh_codes := by
    apply List.ext_getElem?
    intro p
    by_cases hp : p < 2 ^ m * 2 ^ m
    · have hpos : 0 < 2 ^ m := Nat.two_pow_pos m
      have hc : p % 2 ^ m < 2 ^ m := Nat.mod_lt _ hpos
      have hr : p / 2 ^ m < 2 ^ m := Nat.div_lt_of_lt_mul hp
      have hpe : p / 2 ^ m * 2 ^ m + p % 2 ^ m = p := Nat.div_add_mod' p (2 ^ m)
      have h2 := hv2 (p / 2 ^ m) (p % 2 ^ m) hc
      simp only [Nat.zero_le, Nat.zero_add, true_and, hr, hc, and_self, if_true, Nat.sub_zero,
        one_mul, hpe] at h2
      have h1 := hv1 (p / 2 ^ m) (p % 2 ^ m) hr hc
      rw [hpe] at h1
      rw [h2, h1]
    · rw [List.getElem?_eq_none (by
          rw [hl2]
          show junk.length ≤ p
          rw [hjunk]
          exact Nat.not_lt.mp hp),
        List.getElem?_eq_none (by rw [hl1]; exact Nat.not_lt.mp hp)]
  cases b2
  cases b
  simp only at hlist hs2 hs1
  subst hlist
  simp only [cdma_base_station.mk.injEq, true_and]
  rw [hs2, hs1]

/-- The generated matrix (claim C15, as amended): for every power of two
`n ≤ 2 ^ 30`, `cdma_base_station_create n` returns an `n`-by-`n` matrix
in which every cell has been written (the result does not depend on what the
allocated cells held), every entry is `+1` or `-1` and equals `-1` raised to the
number of 1-bits of `r AND c`; for `n = 1` the matrix is `[1]`, and for
`n = 2 * h` it consists of the matrix for `h` in the top-left, top-right and
bottom-left quadrants and of its negation in the bottom-right quadrant. -/
theorem create_is_sylvester (n : Nat) (h30 : n ≤ 2 ^ 30) (hp : ∃ m, n = 2 ^ m) :
    ∃ b, cdma_base_station_create n = .ok b ∧ b.walsh_codes_size = n ∧
      b.walsh_codes.length = n * n ∧
      (∀ junk : List Int, junk.length = n * n →
        walsh_codes_init (usub (get_log2 n) 1)
          { walsh_codes := junk, walsh_codes_size := n } 0 0 n 1 = .ok b) ∧
      (∀ r c, r < n → c < n →
        ∃ v, b.walsh_codes[r * n + c]? = some v ∧ (v = 1 ∨ v = -1) ∧
          v = (-1) ^ popcount (r &&& c)) ∧
      (n = 1 → b.walsh_codes = [1]) ∧
      (∀ h, n = 2 * h →
        ∃ bh, cdma_base_station_create h = .ok bh ∧ bh.walsh_codes_size = h ∧
          ∀ r c, r < h → c < h →
            code_chip b r c = code_chip bh r c ∧
            code_chip b r (c + h) = code_chip bh r c ∧
            code_chip b (r + h) c = code_chip bh r c ∧
            code_chip b (r + h) (c + h) = - code_chip bh r c) := by
  obtain ⟨m, rfl⟩ := hp
  have hm : m < 31 := pow_le_30 h30
  obtain ⟨b, hb, hs, hl, hv⟩ := cdma_base_station_create_pow m hm
  refine ⟨b, hb, hs, hl, fun junk hj => walsh_codes_init_overwrites m hm b hb junk hj, ?_, ?_, ?_⟩
  · intro r c hr hc
    refine ⟨hadamard m r c, hv r c hr hc, ?_, ?_⟩
    · rw [hadamard_eq_pow m r c hr hc]
      exact neg_one_pow_eq_or Int _
    · rw [hadamard_eq_pow m r c hr hc, popcount_eq_ones_below m (r &&& c)
        (Nat.and_lt_two_pow r hc)]
  · intro h1
    have hm0 : m = 0 := by
      rcases Nat.eq_zero_or_pos m with h | h
      · exact h
      · have : 2 ^ 1 ≤ 2 ^ m := Nat.pow_le_pow_right (by decide) h
        omega
    subst hm0
    apply List.ext_getElem?
    intro p
    by_cases hp0 : p = 0
    · subst hp0
      have := hv 0 0 (by simp) (by simp)
      simpa [hadamard_zero] using this
    · rw [List.getElem?_eq_none (by rw [hl]; simp; omega), List.getElem?_eq_none (by simp; omega)]
  · intro h hh
    have hmpos : 0 < m := by
      rcases Nat.eq_zero_or_pos m with h0 | h0
      · subst h0
        simp at hh
        omega
      · exact h0
    obtain ⟨k, rfl⟩ : ∃ k, m = k + 1 := ⟨m - 1, by omega⟩
    have hS : 2 ^ (k + 1) = 2 ^ k + 2 ^ k := by ring
    have hhk : h = 2 ^ k := by omega
    subst hhk
    obtain ⟨bh, hbh, hsh, _, hvh⟩ := cdma_base_station_create_pow k (by omega)
    refine ⟨bh, hbh, hsh, ?_⟩
    intro r c hr hc
    have hpk : ¬ (2 ^ k + c < 2 ^ k) := by omega
    have hrk : ¬ (2 ^ k + r < 2 ^ k) := by omega
    rw [code_chip_create (k + 1) b hs hv r c (by omega) (by omega),
      code_chip_create (k + 1) b hs hv r (c + 2 ^ k) (by omega) (by omega),
      code_chip_create (k + 1) b hs hv (r + 2 ^ k) c (by omega) (by omega),
      code_chip_create (k + 1) b hs hv (r + 2 ^ k) (c + 2 ^ k) (by omega) (by omega),
      code_chip_create k bh hsh hvh r c hr hc]
    simp only [hadamard_succ, hr, hc, if_true, Nat.add_comm r, Nat.add_comm c, hpk, hrk,
      if_false, Nat.add_sub_cancel_left, and_self]

theorem create_is_sylvester_witness :
    ∃ b, cdma_base_station_create 4 = .ok b ∧ b.walsh_codes_size = 4 ∧
      b.walsh_codes.length = 4 * 4 ∧
      (∀ junk : List Int, junk.length = 4 * 4 →
        walsh_codes_init (usub (get_log2 4) 1)
          { walsh_codes := junk, walsh_codes_size := 4 } 0 0 4 1 = .ok b) ∧
      (∀ r c, r < 4 → c < 4 →
        ∃ v, b.walsh_codes[r * 4 + c]? = some v ∧ (v = 1 ∨ v = -1) ∧
          v = (-1) ^ popcount (r &&& c)) ∧
      (4 = 1 → b.walsh_codes = [1]) ∧
      (∀ h, 4 = 2 * h →
        ∃ bh, cdma_base_station_create h = .ok bh ∧ bh.walsh_codes_size = h ∧
          ∀ r c, r < h → c < h →
            code_chip b r c = code_chip bh r c ∧
            code_chip b r (c + h) = code_chip bh r c ∧
            code_chip b (r + h) c = code_chip bh r c ∧
            code_chip b (r + h) (c + h) = - code_chip bh r c) :=
  create_is_sylvester 4 (by decide) ⟨2, by decide⟩

/-- The generated matrix (claim C15) does not exist for the power of two
`n = 2 ^ 31`, which an `unsigned int` holds: the allocation size
`sizeof(int) * (n * n)` is `2 ^ 64`, that is `0` in `size_t`, so the matrix has
no cell, the first store of `walsh_codes_init` is out of bounds and
`cdma_base_station_create` returns no matrix, in particular none whose cells
are all written. -/
theorem no_sylvester_matrix_at_2_pow_31 :
    (∃ m, 2 ^ 31 = 2 ^ m) ∧
    size_mul 4 (size_mul (2 ^ 31) (2 ^ 31)) / 4 = 0 ∧
    walsh_codes_init (usub (get_log2 (2 ^ 31)) 1)
      { walsh_codes := [], walsh_codes_size := 2 ^ 31 } 0 0 (2 ^ 31) 1 = .undefined ∧
    ¬ ∃ b, cdma_base_station_create (2 ^ 31) = .ok b ∧
      b.walsh_codes.length = 2 ^ 31 * 2 ^ 31 := by
  refine ⟨⟨31, rfl⟩, by decide, walsh_codes_init_nil _ _ _ _ _ _ rfl, ?_⟩
  rintro ⟨b, hb, _⟩
  rw [create_undefined_2_pow_31] at hb
  cases hb

/-! ## Decoding several stations -/

theorem for_loop_error_at {σ : Type} (body : Nat → σ → Outcome σ) (init st : σ) (s : Nat)
    (c : cdma_errno) (hpre : for_loop body s init = .ok st) (hfail : body s st = .error c) :
    ∀ n, s < n → for_loop body n init = .error c := by
  intro n
  induction n with
  | zero => intro h; omega
  | succ n ih =>
    intro h
    rw [for_loop_succ]
    rcases Nat.lt_succ_iff_lt_or_eq.mp h with h1 | h1
    · rw [ih h1, Outcome.bind_error]
    · subst h1
      rw [hpre, Outcome.bind_ok, hfail]

/-- A loop that stores the result of decoder `g` for station `s` in slot `s`: as
long as the decoder returns, the slots hold the results in station order. -/
theorem decode_loop_prefix (g : Nat → Outcome (List Nat)) (f : Nat → List Nat)
    (count k : Nat) (hk : k ≤ count) (hg : ∀ s, s < k → g s = .ok (f s)) :
    ∃ out, for_loop (fun station messages => (g station).bind fun message =>
        write messages station message) k (List.replicate (count + 1) []) = .ok out ∧
      out.length = count + 1 ∧
      ∀ p, out[p]? = if p < k then some (f p) else (List.replicate (count + 1) [])[p]? := by
  have key := for_loop_inv (fun station messages => (g station).bind fun message =>
        write messages station message)
    (fun s out => out.length = count + 1 ∧
      ∀ p, out[p]? = if p < s then some (f p) else (List.replicate (count + 1) [])[p]?)
    k (List.replicate (count + 1) [])
    ⟨by simp, fun p => by simp⟩
    (by
      rintro s out hs ⟨hl, hv⟩
      refine ⟨out.set s (f s), ?_, by simpa using hl, ?_⟩
      · simp only [hg s hs, Outcome.bind_ok, write_of_lt _ (by omega : s < out.length)]
      · intro p
        rw [List.getElem?_set, hv p]
        by_cases hp : s = p
        · subst hp
          rw [if_pos rfl, if_pos (by omega), if_pos (by omega)]
        · rw [if_neg hp]
          by_cases hp2 : p < s
          · rw [if_pos hp2, if_pos (by omega)]
          · rw [if_neg hp2, if_neg (by omega)])
  exact key

theorem get_alloc_true (r : cdma_receiver) (e : cdma_encoded_message) (station : Nat) :
    cdma_receiver_get_alloc true r e station = cdma_receiver_get r e station := by
  unfold cdma_receiver_get_alloc cdma_receiver_get
  by_cases h : CODE_LENGTH * r.base_station.walsh_codes_size = 0
  · simp only [h, if_true]
  · simp only [h, if_false, if_true]

/-- Several stations (claim C13): `cdma_receiver_decode_n` is repeated
`cdma_receiver_get`. With every allocation succeeding the allocation-aware
function is `cdma_receiver_decode_n`. When the decode of every station below
`count` returns a text, the result is the array of exactly these `count` texts in
station order, closed by `NULL`. When the decodes of the stations below `s`
return and the decode of station `s < count` fails with error `c`, the result
is no array at all but the error `c`. -/
theorem decode_n_is_repeated_get (r : cdma_receiver) (e : cdma_encoded_message)
    (count : Nat) (oks : Nat → Bool) :
    cdma_receiver_decode_n_alloc true (fun _ => true) r e count =
      cdma_receiver_decode_n r e count ∧
    (∀ f : Nat → List Nat,
      (∀ i, i < count → cdma_receiver_get_alloc (oks i) r e i = .ok (f i)) →
      cdma_receiver_decode_n_alloc true oks r e count =
        .ok ((List.range count).map f ++ [[]])) ∧
    (∀ s c, s < count →
      (∀ i, i < s → ∃ m, cdma_receiver_get_alloc (oks i) r e i = .ok m) →
      cdma_receiver_get_alloc (oks s) r e s = .error c →
      cdma_receiver_decode_n_alloc true oks r e count = .error c) := by
  refine ⟨?_, ?_, ?_⟩
  · have hbody : decode_n_station_alloc (fun _ => true) r e = decode_n_station r e := by
      funext station messages
      simp only [decode_n_station_alloc, decode_n_station, get_alloc_true]
    simp only [cdma_receiver_decode_n_alloc, if_true, hbody, cdma_receiver_decode_n]
  · intro f hf
    obtain ⟨out, hout, hl, hv⟩ := decode_loop_prefix
      (fun s => cdma_receiver_get_alloc (oks s) r e s) f count count (Nat.le_refl _) hf
    have hrun : cdma_receiver_decode_n_alloc true oks r e count = .ok out := by
      simp only [cdma_receiver_decode_n_alloc, if_true]
      exact hout
    rw [hrun]
    congr 1
    apply List.ext_getElem?
    intro p
    rw [hv p]
    by_cases hp : p < count
    · rw [if_pos hp, List.getElem?_append_left (by simpa using hp), List.getElem?_map,
        List.getElem?_range hp]
      rfl
    · rw [if_neg hp]
      by_cases hp2 : p = count
      · subst hp2
        rw [List.getElem?_append_right (by simp)]
        simp
      · rw [List.getElem?_eq_none (by simp; omega), List.getElem?_eq_none (by simp; omega)]
  · intro s c hs hpre hfail
    have hf : ∀ i, i < s → cdma_receiver_get_alloc (oks i) r e i =
        .ok (match cdma_receiver_get_alloc (oks i) r e i with
          | .ok m => m
          | _ => []) := by
      intro i hi
      obtain ⟨m, hm⟩ := hpre i hi
      rw [hm]
    obtain ⟨out, hout, _, _⟩ := decode_loop_prefix
      (fun s => cdma_receiver_get_alloc (oks s) r e s) _ count s (Nat.le_of_lt hs) hf
    simp only [cdma_receiver_decode_n_alloc, if_true]
    exact for_loop_error_at (decode_n_station_alloc oks r e) _ out s c hout
      (by simp only [decode_n_station_alloc, hfail, Outcome.bind_error]) count hs

theorem decode_n_is_repeated_get_witness :
    cdma_receiver_decode_n_alloc true (fun i => decide (i ≠ 1))
        { base_station := { walsh_codes := [1, 1, 1, -1], walsh_codes_size := 2 } }
        { encoded := [], size := 0 } 1 = .ok ((List.range 1).map (fun _ => [0]) ++ [[]]) ∧
    cdma_receiver_decode_n_alloc true (fun i => decide (i ≠ 1))
        { base_station := { walsh_codes := [1, 1, 1, -1], walsh_codes_size := 2 } }
        { encoded := [], size := 0 } 2 = .error .CDMA_OUT_OF_MEMORY :=
  ⟨(decode_n_is_repeated_get
      { base_station := { walsh_codes := [1, 1, 1, -1], walsh_codes_size := 2 } }
      { encoded := [], size := 0 } 1 (fun i => decide (i ≠ 1))).2.1 (fun _ => [0]) (by decide),
   (decode_n_is_repeated_get
      { base_station := { walsh_codes := [1, 1, 1, -1], walsh_codes_size := 2 } }
      { encoded := [], size := 0 } 2 (fun i => decide (i ≠ 1))).2.2 1 .CDMA_OUT_OF_MEMORY
      (by decide) (fun i hi => ⟨[0], by
        have h0 : i = 0 := by omega
        subst h0
        decide⟩) (by decide)⟩

/-! ## The two embeddings of the receiver agree -/

theorem Outcome.rel_bind {α β γ δ : Type} {R : α → β → Prop} {S : γ → δ → Prop}
    {x : Outcome α} {y : Outcome β} {f : α → Outcome γ} {g : β → Outcome δ}
    (hxy : Outcome.rel R x y) (hfg : ∀ a b, R a b → Outcome.rel S (f a) (g b)) :
    Outcome.rel S (x.bind f) (y.bind g) := by
  cases x <;> cases y <;> simp only [Outcome.rel] at hxy
  · exact hfg _ _ hxy
  · exact hxy
  · trivial

theorem Outcome.rel_refl_bind {α γ δ : Type} {S : γ → δ → Prop}
    (x : Outcome α) {f : α → Outcome γ} {g : α → Outcome δ}
    (hfg : ∀ a, Outcome.rel S (f a) (g a)) :
    Outcome.rel S (x.bind f) (x.bind g) := by
  cases x
  · exact hfg _
  · rfl
  · trivial

theorem for_loop_rel {σ τ : Type} (R : σ → τ → Prop) (b1 : Nat → σ → Outcome σ)
    (b2 : Nat → τ → Outcome τ)
    (h : ∀ i a b, R a b → Outcome.rel R (b1 i a) (b2 i b)) :
    ∀ n a b, R a b → Outcome.rel R (for_loop b1 n a) (for_loop b2 n b)
  | 0, _, _, hab => hab
  | n + 1, a, b, hab => by
    rw [for_loop_succ, for_loop_succ]
    exact Outcome.rel_bind (for_loop_rel R b1 b2 h n a b hab) (h n)

theorem receiver_chip_rel (W enc : List Int) (msg : List Nat) (data : List Int) (cc : Nat)
    (shift k : Nat) (s : Int × Nat) :
    Outcome.rel
      (fun (s : Int × Nat) (t : receiver_state) =>
        t = { walsh_codes := W, encoded := enc, message := msg, data := data
              index := s.2, sum := s.1, c := cc })
      (receiver_chip enc W shift k s)
      (receiver_chip_st shift k
        { walsh_codes := W, encoded := enc, message := msg, data := data
          index := s.2, sum := s.1, c := cc }) := by
  unfold receiver_chip receiver_chip_st
  exact Outcome.rel_refl_bind _ fun a => Outcome.rel_refl_bind _ fun b => rfl

theorem receiver_bit_rel (W enc : List Int) (msg : List Nat) (cc : Nat)
    (shift j : Nat) (s : List Int × Nat) (sum : Int) :
    Outcome.rel
      (fun (s : List Int × Nat) (t : receiver_state) =>
        ∃ sum, t = { walsh_codes := W, encoded := enc, message := msg, data := s.1
                     index := s.2, sum := sum, c := cc })
      (receiver_bit enc W shift j s)
      (receiver_bit_st shift j
        { walsh_codes := W, encoded := enc, message := msg, data := s.1
          index := s.2, sum := sum, c := cc }) := by
  unfold receiver_bit receiver_bit_st
  refine Outcome.rel_bind (for_loop_rel
    (fun (q : Int × Nat) (t : receiver_state) =>
      t = { walsh_codes := W, encoded := enc, message := msg, data := s.1
            index := q.2, sum := q.1, c := cc })
    _ _ ?_ CODE_LENGTH (0, s.2) _ rfl) ?_
  · rintro i a b rfl
    exact receiver_chip_rel W enc msg s.1 cc shift i a
  · rintro r t rfl
    exact Outcome.rel_refl_bind _ fun data => ⟨r.1, rfl⟩

theorem receiver_assemble_rel (W enc : List Int) (msg : List Nat) (data : List Int)
    (idx : Nat) (sum : Int) (j : Nat) (c : Nat) :
    Outcome.rel
      (fun (c : Nat) (t : receiver_state) =>
        t = { walsh_codes := W, encoded := enc, message := msg, data := data
              index := idx, sum := sum, c := c })
      (receiver_assemble data j c)
      (receiver_assemble_st j
        { walsh_codes := W, encoded := enc, message := msg, data := data
          index := idx, sum := sum, c := c }) := by
  unfold receiver_assemble receiver_assemble_st
  exact Outcome.rel_refl_bind _ fun d => rfl

theorem receiver_char_rel (W enc : List Int) (shift i : Nat) (s : List Nat × Nat)
    (data : List Int) (sum : Int) (cc : Nat) :
    Outcome.rel
      (fun (s : List Nat × Nat) (t : receiver_state) =>
        ∃ data sum cc, t = { walsh_codes := W, encoded := enc, message := s.1, data := data
                             index := s.2, sum := sum, c := cc })
      (receiver_char enc W shift i s)
      (receiver_char_st shift i
        { walsh_codes := W, encoded := enc, message := s.1, data := data
          index := s.2, sum := sum, c := cc }) := by
  unfold receiver_char receiver_char_st
  refine Outcome.rel_bind (for_loop_rel
    (fun (q : List Int × Nat) (t : receiver_state) =>
      ∃ sum, t = { walsh_codes := W, encoded := enc, message := s.1, data := q.1
                   index := q.2, sum := sum, c := cc })
    _ _ ?_ CODE_LENGTH (List.replicate CODE_LENGTH 0, s.2) _ ⟨sum, rfl⟩) ?_
  · rintro j a b ⟨sm, rfl⟩
    exact receiver_bit_rel W enc s.1 cc shift j a sm
  · rintro r t ⟨sm, rfl⟩
    refine Outcome.rel_bind (for_loop_rel
      (fun (c : Nat) (t : receiver_state) =>
        t = { walsh_codes := W, encoded := enc, message := s.1, data := r.1
              index := r.2, sum := sm, c := c })
      _ _ ?_ CODE_LENGTH 0 _ rfl) ?_
    · rintro j a b rfl
      exact receiver_assemble_rel W enc s.1 r.1 r.2 sm j a
    · rintro c t rfl
      exact Outcome.rel_refl_bind _ fun message => ⟨r.1, sm, c, rfl⟩

/-- The state-passing embedding of `cdma_receiver_get` returns the buffer of the
functional embedding and hands back the receiver and the stream it was given. -/
theorem receiver_get_st_eq (r : cdma_receiver) (e : cdma_encoded_message) (station : Nat) :
    cdma_receiver_get_st r e station =
      (cdma_receiver_get r e station).bind fun m => .ok (m, r, e) := by
  unfold cdma_receiver_get_st cdma_receiver_get
  by_cases h : CODE_LENGTH * r.base_station.walsh_codes_size = 0
  · simp only [h, if_true, Outcome.bind_undefined]
  · simp only [h, if_false]
    have hrel := for_loop_rel
      (fun (s : List Nat × Nat) (t : receiver_state) =>
        ∃ data sum cc, t = { walsh_codes := r.base_station.walsh_codes
                             encoded := e.encoded, message := s.1, data := data
                             index := s.2, sum := sum, c := cc })
      (receiver_char e.encoded r.base_station.walsh_codes
        (size_mul r.base_station.walsh_codes_size station))
      (receiver_char_st (size_mul r.base_station.walsh_codes_size station))
      (by
        rintro i a b ⟨data, sum, cc, rfl⟩
        exact receiver_char_rel _ _ _ i a data sum cc)
      (e.size / (CODE_LENGTH * r.base_station.walsh_codes_size))
      (List.replicate (e.size / (CODE_LENGTH * r.base_station.walsh_codes_size) + 1) 0, 0)
      { walsh_codes := r.base_station.walsh_codes
        encoded := e.encoded
        message := List.replicate (e.size / (CODE_LENGTH * r.base_station.walsh_codes_size) + 1) 0
        data := [], index := 0, sum := 0, c := 0 }
      ⟨[], 0, 0, rfl⟩
    revert hrel
    generalize for_loop (receiver_char e.encoded r.base_station.walsh_codes
      (size_mul r.base_station.walsh_codes_size station))
      (e.size / (CODE_LENGTH * r.base_station.walsh_codes_size))
      (List.replicate (e.size / (CODE_LENGTH * r.base_station.walsh_codes_size) + 1) 0, 0) = x
    generalize for_loop (receiver_char_st (size_mul r.base_station.walsh_codes_size station))
      (e.size / (CODE_LENGTH * r.base_station.walsh_codes_size))
      { walsh_codes := r.base_station.walsh_codes
        encoded := e.encoded
        message := List.replicate (e.size / (CODE_LENGTH * r.base_station.walsh_codes_size) + 1) 0
        data := [], index := 0, sum := 0, c := 0 } = y
    intro hrel
    cases x <;> cases y <;> simp only [Outcome.rel] at hrel
    · obtain ⟨data, sum, cc, rfl⟩ := hrel
      rfl
    · rw [hrel]
      rfl
    · rfl

/-- A call of `cdma_receiver_get` that stays inside the matrix and the stream
hands both back as it found them, and a second call on them returns the same
buffer. -/
theorem receiver_get_st_returns_inputs (r : cdma_receiver) (e : cdma_encoded_message)
    (station : Nat) (m1 : List Nat) (r1 : cdma_receiver) (e1 : cdma_encoded_message)
    (h : cdma_receiver_get_st r e station = .ok (m1, r1, e1)) :
    r1 = r ∧ e1 = e ∧ cdma_receiver_get_st r1 e1 station = .ok (m1, r1, e1) := by
  have h2 := h
  rw [receiver_get_st_eq] at h2
  cases hg : cdma_receiver_get r e station with
  | ok m =>
    rw [hg, Outcome.bind_ok] at h2
    have h3 := Outcome.ok.inj h2
    have hr : r = r1 := congrArg (fun p => p.2.1) h3
    have he : e = e1 := congrArg (fun p => p.2.2) h3
    subst hr he
    exact ⟨rfl, rfl, h⟩
  | error c =>
    rw [hg, Outcome.bind_error] at h2
    cases h2
  | undefined =>
    rw [hg, Outcome.bind_undefined] at h2
    cases h2

set_option maxRecDepth 1000000 in
/-- Idempotent, non-destructive decode (claim C17) fails on a code set smaller
than 8. On the code set of size 2 with only `"A"` registered, the stream that
`cdma_transmitter_send` returns has 16 chips and the matrix has 4 cells, but
`cdma_receiver_get` for station 0 correlates `CODE_LENGTH = 8` chips per bit: it
reads the cells 4 to 7 behind the matrix and the chips 16 to 63 behind the
stream, so the call is undefined and its output is made from memory that is
neither the stream nor the matrix. The last two evaluations run the same code
on the same 16 chips and 4 cells with two different contents behind the stream
(48 cells holding `0`, then 48 cells holding `1`; `0` behind the matrix): the
decoded byte is `0` in one case and `63` in the other. -/
theorem decode_size_2_reads_outside_stream :
    ((cdma_base_station_create 2).bind fun b =>
      (cdma_transmitter_create b).bind fun t0 =>
      (add_stations t0 [[65]]).bind fun t =>
      (cdma_transmitter_send t).bind fun e =>
      .ok (b.walsh_codes.length, e.size, e.encoded.length)) = .ok (4, 16, 16) ∧
    ((cdma_base_station_create 2).bind fun b =>
      (cdma_transmitter_create b).bind fun t0 =>
      (add_stations t0 [[65]]).bind fun t =>
      (cdma_transmitter_send t).bind fun e =>
      cdma_receiver_get_st { base_station := b } e 0) = .undefined ∧
    ((cdma_base_station_create 2).bind fun b =>
      (cdma_transmitter_create b).bind fun t0 =>
      (add_stations t0 [[65]]).bind fun t =>
      (cdma_transmitter_send t).bind fun e =>
      cdma_receiver_get
        { base_station := { b with walsh_codes := b.walsh_codes ++ List.replicate 4 0 } }
        { e with encoded := e.encoded ++ List.replicate 48 0 } 0) = .ok [0, 0] ∧
    ((cdma_base_station_create 2).bind fun b =>
      (cdma_transmitter_create b).bind fun t0 =>
      (add_stations t0 [[65]]).bind fun t =>
      (cdma_transmitter_send t).bind fun e =>
      cdma_receiver_get
        { base_station := { b with walsh_codes := b.walsh_codes ++ List.replicate 4 0 } }
        { e with encoded := e.encoded ++ List.replicate 48 1 } 0) = .ok [63, 0] := by
  decide

end Cdma
